import Mathlib

open Matrix

/-!
# Verification of the CrossModelTransfer task-vector core

A shallow embedding of the task-vector algebra (`src/task_vectors.py`), the
delta layer (`src/delta.py`) and the orthogonality regularizer
(`src/orthogonal_finetune.py`), together with proofs of the specified
properties.

Tensors are modelled with exact rational entries in place of floating point;
all tensor arithmetic used by the code (elementwise ops with NumPy/PyTorch
broadcasting, 2-D matrix products, `F.linear`) is embedded explicitly over a
flat row-major data list, so that shape errors of the underlying library are
visible as `none`/`Except.error` results.
-/

deriving instance DecidableEq for Except

/-- The tensor dtypes mentioned by the source (`torch.int64`, `torch.uint8`
are the excluded integer/index dtypes in `TaskVector.__init__`; float dtypes
are the learnable ones). -/
inductive DType where
  | float32
  | float16
  | int64
  | uint8
  deriving DecidableEq

/-- `TaskVector.__init__` excludes dtypes in `[torch.int64, torch.uint8]`. -/
def DType.isInt : DType → Bool
  | .int64 => true
  | .uint8 => true
  | _ => false

/-- A tensor: shape, dtype and row-major flat data.  Entries are exact
rationals standing in for floats. -/
structure Tensor where
  shape : List Nat
  dtype : DType
  data : List ℚ
  deriving DecidableEq

/-- Row-major flat index of a multi-index `idx` in a tensor of shape
`shape`. -/
def flatIdx (shape idx : List Nat) : Nat :=
  (shape.zip idx).foldl (fun a p => a * p.1 + p.2) 0

/-- All multi-indices of a shape, in row-major order. -/
def allIdx : List Nat → List (List Nat)
  | [] => [[]]
  | d :: ds => (List.range d).flatMap (fun i => (allIdx ds).map (i :: ·))

/-- Entry of a tensor at a multi-index (0 outside the data). -/
def Tensor.entry (t : Tensor) (idx : List Nat) : ℚ :=
  t.data.getD (flatIdx t.shape idx) 0

/-- NumPy/PyTorch broadcasting on reversed shapes (least-significant
dimension first): dimensions agree, or one of them is 1. -/
def bcastRev : List Nat → List Nat → Option (List Nat)
  | [], ys => some ys
  | x :: xs, [] => some (x :: xs)
  | x :: xs, y :: ys =>
    (bcastRev xs ys).bind (fun rest =>
      if x = y then some (x :: rest)
      else if x = 1 then some (y :: rest)
      else if y = 1 then some (x :: rest)
      else none)

/-- Broadcast result shape of two shapes, `none` if they are not
broadcast-compatible (PyTorch raises a `RuntimeError` in that case). -/
def broadcastShape (s t : List Nat) : Option (List Nat) :=
  (bcastRev s.reverse t.reverse).map List.reverse

/-- Map a multi-index of the broadcast result shape back to a multi-index of
an operand shape: drop the extra leading axes and clamp axes of size 1. -/
def bcastIdx (shape idx : List Nat) : List Nat :=
  (shape.zip (idx.drop (idx.length - shape.length))).map
    (fun p => if p.1 = 1 then 0 else p.2)

/-- Elementwise binary tensor operation with broadcasting: the semantics of
`torch.Tensor.__add__` / `__sub__` as used by the task-vector algebra.
Result dtype is taken from the left operand (all claims concern same-dtype
operands, so type promotion is not modelled). -/
def Tensor.binop (f : ℚ → ℚ → ℚ) (a b : Tensor) : Option Tensor :=
  (broadcastShape a.shape b.shape).map (fun s =>
    ⟨s, a.dtype, (allIdx s).map (fun ix =>
      f (a.entry (bcastIdx a.shape ix)) (b.entry (bcastIdx b.shape ix)))⟩)

/-- `a + b` on tensors. -/
def Tensor.add (a b : Tensor) : Option Tensor := Tensor.binop (· + ·) a b

/-- `a - b` on tensors. -/
def Tensor.sub (a b : Tensor) : Option Tensor := Tensor.binop (· - ·) a b

/-- Scalar multiplication `c * t` (always succeeds in torch). -/
def Tensor.smul (c : ℚ) (t : Tensor) : Tensor :=
  ⟨t.shape, t.dtype, t.data.map (c * ·)⟩

/-- Negation `-t` (always succeeds in torch). -/
def Tensor.neg (t : Tensor) : Tensor :=
  ⟨t.shape, t.dtype, t.data.map (fun x => -x)⟩

/-- `torch.zeros s` (dtype float32, the torch default). -/
def zerosT (s : List Nat) : Tensor :=
  ⟨s, .float32, List.replicate s.prod 0⟩

/-- `torch.eye n`. -/
def eyeT (n : Nat) : Tensor :=
  ⟨[n, n], .float32,
    (List.range n).flatMap (fun i => (List.range n).map (fun j =>
      if i = j then (1 : ℚ) else 0))⟩

/-- Placeholder for a field a `LoRALayer` branch does not create (the Python
object simply lacks the attribute; the value is never read). -/
def noTensor : Tensor := ⟨[], .float32, []⟩

/-- 2-D matrix product `a @ b`, `none` on shape mismatch. -/
def Tensor.matmul (a b : Tensor) : Option Tensor :=
  match a.shape, b.shape with
  | [m, k], [k2, n] =>
    if k = k2 then
      some ⟨[m, n], a.dtype,
        (List.range m).flatMap (fun i => (List.range n).map (fun j =>
          ((List.range k).map (fun l =>
            a.entry [i, l] * b.entry [l, j])).sum))⟩
    else none
  | _, _ => none

/-- 2-D transpose `t.T`. -/
def Tensor.t2 (t : Tensor) : Option Tensor :=
  match t.shape with
  | [m, n] =>
    some ⟨[n, m], t.dtype,
      (List.range n).flatMap (fun i => (List.range m).map (fun j =>
        t.entry [j, i]))⟩
  | _ => none

/-- `torch.nn.functional.linear(x, W) = x @ W.T` for a 2-D batch `x` of shape
`(batch, k)` and weight `W` of shape `(p, k)`; `none` on shape mismatch. -/
def flinear (x W : Tensor) : Option Tensor :=
  match x.shape, W.shape with
  | [m, k], [p, q] =>
    if k = q then
      some ⟨[m, p], x.dtype,
        (List.range m).flatMap (fun i => (List.range p).map (fun j =>
          ((List.range k).map (fun l =>
            x.entry [i, l] * W.entry [j, l])).sum))⟩
    else none
  | _, _ => none

/-! ## Task-vector algebra (`src/task_vectors.py`), value level

A state dict / parameter map is an ordered association list from parameter
names to tensors, mirroring the insertion order of a Python `dict`. -/

abbrev SD := List (String × Tensor)

/-- Python `dict` lookup `d[k]` / `k in d` (first binding wins). -/
def lookupT {α : Type} : List (String × α) → String → Option α
  | [], _ => none
  | (k, t) :: rest, key => if key = k then some t else lookupT rest key

/-- Fatal errors of the task-vector algebra: a `KeyError` from
`finetuned_state_dict[key]`, or a torch `RuntimeError` from arithmetic on
non-broadcastable shapes. -/
inductive TVError where
  | keyError (k : String)
  | shapeError (k : String)
  deriving DecidableEq

namespace TaskVector

/-- `TaskVector.__init__(pretrained, finetuned)` (the checkpoint-pair
branch): for every key of the pretrained state dict, skip it when its dtype
is `torch.int64`/`torch.uint8`, otherwise store
`finetuned_state_dict[key] - pretrained_state_dict[key]`.  Errors propagate
from the first offending key, as in Python. -/
def construct : SD → SD → Except TVError SD
  | [], _ => .ok []
  | (k, t) :: rest, ft =>
    if t.dtype.isInt then construct rest ft
    else
      match lookupT ft k with
      | none => .error (.keyError k)
      | some s =>
        match Tensor.sub s t with
        | none => .error (.shapeError k)
        | some d => (construct rest ft).map ((k, d) :: ·)

/-- `TaskVector.__add__`: iterate over `self.vector` (the second argument of
this function is the list being recursed on); a key missing from
`other.vector` is warned about and skipped, a shared key stores
`self.vector[key] + other.vector[key]`.  Returns the new vector together
with the list of warned-about keys. -/
def add (other : SD) : SD → Except TVError (SD × List String)
  | [] => .ok ([], [])
  | (k, t) :: rest =>
    match lookupT other k with
    | none => (add other rest).map (fun p => (p.1, k :: p.2))
    | some s =>
      match Tensor.add t s with
      | none => .error (.shapeError k)
      | some u => (add other rest).map (fun p => ((k, u) :: p.1, p.2))

/-- `TaskVector.apply_to(pretrained_checkpoint, scaling_coef)`: the
parameter map of the returned encoder.  The source deep-copies the base,
builds `new_state_dict` with `base[key] + scaling_coef * vector[key]` for
the keys of the base that exist in the vector (warning about the others),
then `load_state_dict(new_state_dict, strict=False)`, which leaves the
remaining keys at the (copied) base values.  Returns the final map and the
warned-about keys. -/
def applyTo (vec : SD) (c : ℚ) : SD → Except TVError (SD × List String)
  | [] => .ok ([], [])
  | (k, t) :: rest =>
    match lookupT vec k with
    | none => (applyTo vec c rest).map (fun p => ((k, t) :: p.1, k :: p.2))
    | some d =>
      match Tensor.add t (Tensor.smul c d) with
      | none => .error (.shapeError k)
      | some nt => (applyTo vec c rest).map (fun p => ((k, nt) :: p.1, p.2))

/-- `apply_to` with the `scaling_coef` argument omitted (its default in the
source is `1.0`). -/
def applyToDefault (vec : SD) (base : SD) : Except TVError (SD × List String) :=
  applyTo vec 1 base

end TaskVector

/-! ## Task-vector algebra, store level

To state the frame/value-semantics claim (operands are never mutated, the
results are fresh objects) the same three operations are modelled over an
explicit tensor store: addresses are indices into a heap of tensors, a
parameter map holds addresses, `copy.deepcopy` allocates, and
`load_state_dict` writes in place into the (copied) target. -/

/-- A heap of tensors; an address is an index. -/
structure Store where
  tensors : List Tensor
  deriving DecidableEq

/-- A parameter map at the store level: names to addresses. -/
abbrev RefMap := List (String × Nat)

/-- Dereference (the default tensor is never reached by well-formed maps). -/
def Store.read (s : Store) (a : Nat) : Tensor :=
  s.tensors.getD a noTensor

/-- Allocate a fresh tensor, returning its address. -/
def Store.alloc (s : Store) (t : Tensor) : Store × Nat :=
  (⟨s.tensors ++ [t]⟩, s.tensors.length)

/-- In-place write (`Tensor.copy_`). -/
def Store.write (s : Store) (a : Nat) (t : Tensor) : Store :=
  ⟨s.tensors.set a t⟩

/-- Store-level `TaskVector.__neg__`: `-self.vector[key]` allocates a fresh
tensor per key; the operand map is only read. -/
def negS (s : Store) : RefMap → Store × RefMap
  | [] => (s, [])
  | (k, ad) :: rest =>
    let p := s.alloc (Tensor.neg (s.read ad))
    let q := negS p.1 rest
    (q.1, (k, p.2) :: q.2)

/-- Store-level `TaskVector.__add__` (cf. `TaskVector.add`): sums allocate
fresh tensors; both operand maps are only read. -/
def addS (s : Store) (other : RefMap) : RefMap → Store × Except TVError (RefMap × List String)
  | [] => (s, .ok ([], []))
  | (k, ad) :: rest =>
    match lookupT other k with
    | none =>
      let q := addS s other rest
      (q.1, q.2.map (fun p => (p.1, k :: p.2)))
    | some bd =>
      match Tensor.add (s.read ad) (s.read bd) with
      | none => (s, .error (.shapeError k))
      | some t =>
        let p := s.alloc t
        let q := addS p.1 other rest
        (q.1, q.2.map (fun r => ((k, p.2) :: r.1, r.2)))

/-- `copy.deepcopy(pretrained_checkpoint)` restricted to its parameter map:
every tensor of the base is copied into a fresh allocation. -/
def copyAll (s : Store) : RefMap → Store × RefMap
  | [] => (s, [])
  | (k, ad) :: rest =>
    let p := s.alloc (s.read ad)
    let q := copyAll p.1 rest
    (q.1, (k, p.2) :: q.2)

/-- The `new_state_dict` loop of `apply_to`: for every key of the (copied)
base present in the vector, allocate `base[key] + scaling_coef * vec[key]`;
other keys are warned about and skipped. -/
def buildNewS (s : Store) (vec : RefMap) (c : ℚ) : RefMap → Store × Except TVError (RefMap × List String)
  | [] => (s, .ok ([], []))
  | (k, ad) :: rest =>
    match lookupT vec k with
    | none =>
      let q := buildNewS s vec c rest
      (q.1, q.2.map (fun p => (p.1, k :: p.2)))
    | some vd =>
      match Tensor.add (s.read ad) (Tensor.smul c (s.read vd)) with
      | none => (s, .error (.shapeError k))
      | some t =>
        let p := s.alloc t
        let q := buildNewS p.1 vec c rest
        (q.1, q.2.map (fun r => ((k, p.2) :: r.1, r.2)))

/-- `load_state_dict(new_state_dict, strict=False)`: copy each value of
`new` in place into the matching parameter of `target` (keys without a
match are ignored by `strict=False`). -/
def loadSD (s : Store) (target : RefMap) : RefMap → Store
  | [] => s
  | (k, ad) :: rest =>
    match lookupT target k with
    | none => loadSD s target rest
    | some td => loadSD (s.write td (s.read ad)) target rest

/-- Store-level `TaskVector.apply_to`: deep-copy the base, build
`new_state_dict` from the copy, load it into the copy, return the copy.
Only the copy is ever written to. -/
def applyToS (s : Store) (vec base : RefMap) (c : ℚ) : Store × Except TVError RefMap :=
  let cp := copyAll s base
  match buildNewS cp.1 vec c cp.2 with
  | (s2, .error e) => (s2, .error e)
  | (s2, .ok (nm, _)) => (loadSD s2 cp.2 nm, .ok cp.2)

/-! ## Persistence (`save_vector` / `load_vector`) -/

/-- `os.path.dirname` (posix): everything up to the last `/`; a head that is
not all slashes has its trailing slashes stripped. -/
def upToLastSlash : List Char → List Char
  | [] => []
  | c :: rest =>
    if '/' ∈ rest then c :: upToLastSlash rest
    else if c = '/' then [c]
    else []

/-- `os.path.dirname(p)`. -/
def dirname (p : String) : String :=
  let head := upToLastSlash p.data
  if head.isEmpty then ""
  else if head.all (· = '/') then String.mk head
  else String.mk ((head.reverse.dropWhile (· = '/')).reverse)

/-- Filesystem errors relevant here: `os.makedirs("")` raises
`FileNotFoundError`, and loading a missing file fails. -/
inductive IOErr where
  | fileNotFound
  deriving DecidableEq

/-- A filesystem: the set of directories that exist and the stored
task-vector files.  `torch.save`/`torch_load` of a `Dict[str, Tensor]` is
bit-exact, so a stored file is modelled as the parameter map itself. -/
structure FileSys where
  dirs : List String
  files : List (String × SD)
  deriving DecidableEq

/-- `os.makedirs(d, exist_ok=True)`: creating the empty path raises
`FileNotFoundError`; otherwise the directory (with its ancestors) exists
afterwards. -/
def makedirs (fs : FileSys) (d : String) : Except IOErr FileSys :=
  if d = "" then .error .fileNotFound
  else .ok { fs with dirs := d :: fs.dirs }

/-- `TaskVector.save_vector(path)`: `os.makedirs(os.path.dirname(path),
exist_ok=True)` then `torch.save(self.vector, path)`. -/
def saveVector (vec : SD) (path : String) (fs : FileSys) : Except IOErr FileSys :=
  (makedirs fs (dirname path)).map
    (fun fs1 => { fs1 with files := (path, vec) :: fs1.files })

/-- `TaskVector.load_vector(path)`: `torch_load(path)` wrapped as
`TaskVector(vector=...)` with no recomputation. -/
def loadVector (path : String) (fs : FileSys) : Except IOErr SD :=
  match lookupT fs.files path with
  | none => .error .fileNotFound
  | some v => .ok v

/-! ## Delta layer (`src/delta.py`) -/

/-- `LoRALayer`: fields of both parameterizations; the branch not selected
by `r` leaves its fields at `noTensor` (the Python object does not create
those attributes, and they are never read). `alpha` is the integer scaling
numerator, carried as a rational for the `* alpha / r` arithmetic. -/
structure LoRALayer where
  in_features : Nat
  out_features : Nat
  r : Nat
  alpha : ℚ
  bias : Bool
  A : Tensor
  B : Tensor
  D : Tensor
  b : Tensor
  U : Tensor
  deriving DecidableEq

/-- `LoRALayer.__init__`: for `r > 0` create `A` (filled by
`kaiming_uniform_` in `reset_parameters` — its values are arbitrary, passed
in as `AData`) and `B` zeroed by `reset_parameters`; for `r == 0` create a
zero `D` and, if `bias`, a zero `b`.  `U` is `torch.eye(in_features)`. -/
def LoRALayer.init (inF outF r : Nat) (alpha : ℚ) (bias : Bool)
    (AData : List ℚ) : LoRALayer :=
  if r > 0 then
    { in_features := inF, out_features := outF, r := r, alpha := alpha,
      bias := bias,
      A := ⟨[r, inF], .float32, AData⟩,
      B := zerosT [outF, r],
      D := noTensor, b := noTensor,
      U := eyeT inF }
  else
    { in_features := inF, out_features := outF, r := r, alpha := alpha,
      bias := bias,
      A := noTensor, B := noTensor,
      D := zerosT [inF, outF],
      b := if bias then zerosT [outF] else noTensor,
      U := eyeT inF }

/-- `LoRALayer.forward(inputs)`:
`r > 0`: `F.linear(inputs, U)`, then `F.linear(·, B @ A)`, then
`F.linear(·, U.T)`, scaled by `alpha / r`;
`r == 0`: the same chain with weight `D`, plus `b` when `bias`.
Shape mismatches of the underlying library surface as `none`. -/
def LoRALayer.forward (l : LoRALayer) (inputs : Tensor) : Option Tensor :=
  if l.r > 0 then
    (flinear inputs l.U).bind (fun xU =>
    (l.B.matmul l.A).bind (fun BA =>
    (flinear xU BA).bind (fun xUW =>
    (l.U.t2).bind (fun Ut =>
    (flinear xUW Ut).map (fun xUWUh =>
      Tensor.smul (l.alpha / (l.r : ℚ)) xUWUh)))))
  else if l.bias then
    (flinear inputs l.U).bind (fun xU =>
    (flinear xU l.D).bind (fun xUW =>
    (l.U.t2).bind (fun Ut =>
    (flinear xUW Ut).bind (fun xUWUh =>
      Tensor.add xUWUh l.b))))
  else
    (flinear inputs l.U).bind (fun xU =>
    (flinear xU l.D).bind (fun xUW =>
    (l.U.t2).bind (fun Ut =>
    flinear xUW Ut)))

/-! ## Rotation maintenance (`LoRALayer.randomize` / `LoRALayer.qr`)

`torch.linalg.qr` is a numerical routine; it is embedded in exact real
arithmetic: the orthogonal factor of the QR decomposition of a matrix with
linearly independent columns is the Gram-Schmidt orthonormalization of its
columns. -/

/-- Column `k` of `M` as a vector of Euclidean space. -/
noncomputable def colE {n : ℕ} (M : Matrix (Fin n) (Fin n) ℝ) (k : Fin n) :
    EuclideanSpace ℝ (Fin n) :=
  (WithLp.linearEquiv 2 ℝ (Fin n → ℝ)).symm (Mᵀ k)

/-- The `j`-th Gram-Schmidt orthonormalized column of `M`. -/
noncomputable def gsCol {n : ℕ} (M : Matrix (Fin n) (Fin n) ℝ) (j : Fin n) :
    EuclideanSpace ℝ (Fin n) :=
  @gramSchmidtNormed ℝ (EuclideanSpace ℝ (Fin n)) _ _ _ (Fin n) _ _
    (inferInstance : WellFoundedLT (Fin n)) (colE M) j

/-- The orthogonal factor `Q` of the QR decomposition `torch.linalg.qr(M)`
(in exact arithmetic): column `j` of `Q` is the `j`-th Gram-Schmidt
orthonormalized column of `M`. -/
noncomputable def qrQ {n : ℕ} (M : Matrix (Fin n) (Fin n) ℝ) :
    Matrix (Fin n) (Fin n) ℝ :=
  Matrix.of fun i j => gsCol M j i

/-- The state of the rotation matrix `U` of a `LoRALayer`, together with
whether the most recent in-place update of `U` was recorded by autograd
(`LoRALayer.qr` is decorated `@torch.no_grad()`, so its `U.copy_(Q)` is
not). -/
structure RotationState (n : ℕ) where
  U : Matrix (Fin n) (Fin n) ℝ
  tapeRecorded : Bool

/-- `LoRALayer.qr`: `Q, R = torch.linalg.qr(self.U); self.U.copy_(Q)`,
under `@torch.no_grad()` (the update is excluded from gradient tracking). -/
noncomputable def RotationState.qr {n : ℕ} (s : RotationState n) : RotationState n :=
  ⟨qrQ s.U, false⟩

/-- `LoRALayer.randomize`: `nn.init.kaiming_uniform_(self.U, a=sqrt(5))`
fills `U` with a variance-scaled random draw (passed in as `K`), then
`self.qr()` re-orthogonalizes it. -/
noncomputable def RotationState.randomize {n : ℕ} (s : RotationState n)
    (K : Matrix (Fin n) (Fin n) ℝ) : RotationState n :=
  RotationState.qr { s with U := K }

/-! ## Orthogonality regularizer (`OrthLoss`, `src/orthogonal_finetune.py`) -/

/-- The errors `OrthLoss.forward` can raise: the `ValueError` for an invalid
`adjust_type`, and the `ZeroDivisionError` of `sum([]) / 0`. -/
inductive OrthError where
  | invalidAdjustType (s : String)
  | zeroDivision
  deriving DecidableEq

/-- Frobenius norm `torch.linalg.matrix_norm(·, ord="fro")`. -/
noncomputable def froNorm {n : ℕ} (M : Matrix (Fin n) (Fin n) ℝ) : ℝ :=
  Real.sqrt (∑ i, ∑ j, (M i j) ^ 2)

/-- Spectral norm `torch.linalg.matrix_norm(·, ord=2)`: the operator norm of
the induced map on Euclidean space. -/
noncomputable def specNorm {n : ℕ} (M : Matrix (Fin n) (Fin n) ℝ) : ℝ :=
  ‖LinearMap.toContinuousLinearMap (Matrix.toEuclideanLin M)‖

/-- The part of an `ImageEncoder` read by `OrthLoss.forward`: the number of
transformer layers and, per layer and per projection name (`"q"`, `"k"`,
`"v"`, `"out"`), the rotation matrix
`resblocks[i].attn.{e}_proj.Delta.U`. -/
structure ImageEncoderModel (n : ℕ) where
  layers : ℕ
  deltaU : ℕ → String → Matrix (Fin n) (Fin n) ℝ

/-- The `embeds` list of `OrthLoss.forward`. -/
def embeds : List String := ["q", "k", "v", "out"]

/-- The rotation matrices visited by the double loop of
`OrthLoss.forward`, in visiting order. -/
def attnUs {n : ℕ} (enc : ImageEncoderModel n) : List (Matrix (Fin n) (Fin n) ℝ) :=
  (List.range enc.layers).flatMap (fun i => embeds.map (fun e => enc.deltaU i e))

/-- The loop body of `OrthLoss.forward`: append the selected norm of
`U.T @ U - I` for each rotation matrix, raising `ValueError` at the first
iteration if `adjust_type` is neither `"fro"` nor `"spec"`. -/
noncomputable def orthTerms {n : ℕ} (adjust_type : String) :
    List (Matrix (Fin n) (Fin n) ℝ) → Except OrthError (List ℝ)
  | [] => .ok []
  | U :: rest =>
    if adjust_type = "fro" then
      (orthTerms adjust_type rest).map (froNorm (Uᵀ * U - 1) :: ·)
    else if adjust_type = "spec" then
      (orthTerms adjust_type rest).map (specNorm (Uᵀ * U - 1) :: ·)
    else .error (.invalidAdjustType adjust_type)

/-- `OrthLoss.forward(image_encoder)`: collect the per-matrix norms, then
return `sum(orth_loss) / len(orth_loss)` (a `ZeroDivisionError` when the
list is empty). -/
noncomputable def OrthLossForward {n : ℕ} (adjust_type : String)
    (enc : ImageEncoderModel n) : Except OrthError ℝ :=
  match orthTerms adjust_type (attnUs enc) with
  | .error e => .error e
  | .ok ts =>
    if ts.length = 0 then .error .zeroDivision
    else .ok (ts.sum / (ts.length : ℝ))

/-! ## Helper lemmas -/

theorem lookupT_eq_none {α : Type} (l : List (String × α)) (k : String)
    (h : k ∉ l.map Prod.fst) : lookupT l k = none := by
  induction l with
  | nil => rfl
  | cons hd rest ih =>
    simp only [List.map_cons, List.mem_cons, not_or] at h
    simp only [lookupT, if_neg h.1, ih h.2]

theorem construct_lookup_none (ft : SD) (k : String) :
    ∀ (pre : SD) (v : SD), TaskVector.construct pre ft = .ok v →
      k ∉ pre.map Prod.fst → lookupT v k = none := by
  intro pre
  induction pre with
  | nil =>
    intro v hv _
    simp only [TaskVector.construct] at hv
    cases hv
    rfl
  | cons hd rest ih =>
    intro v hv hk
    obtain ⟨k0, t0⟩ := hd
    simp only [List.map_cons, List.mem_cons, not_or] at hk
    by_cases hint : t0.dtype.isInt
    · simp only [TaskVector.construct, if_pos hint] at hv
      exact ih v hv hk.2
    · cases hft : lookupT ft k0 with
      | none =>
        simp only [TaskVector.construct, if_neg hint, hft] at hv
        exact Except.noConfusion hv
      | some s =>
        cases hsub : Tensor.sub s t0 with
        | none =>
          simp only [TaskVector.construct, if_neg hint, hft, hsub] at hv
          exact Except.noConfusion hv
        | some d =>
          cases hrest : TaskVector.construct rest ft with
          | error e =>
            simp only [TaskVector.construct, if_neg hint, hft, hsub, hrest,
              Except.map] at hv
            exact Except.noConfusion hv
          | ok v0 =>
            simp only [TaskVector.construct, if_neg hint, hft, hsub, hrest,
              Except.map, Except.ok.injEq] at hv
            subst hv
            simp only [lookupT, if_neg hk.1]
            exact ih v0 hrest hk.2

/-- C1: `TaskVector` construction from a (pretrained, finetuned) checkpoint
pair: every key of the pretrained map with a non-integer dtype is mapped to
`finetuned[key] - pretrained[key]`, and every integer/index-dtype key is
absent from the result.  The hypothesis `hall` is the claim's precondition:
every non-integer key of the pretrained map is present in the finetuned map
(and the subtraction is shape-compatible, which is what makes the torch
subtraction succeed). -/
theorem taskvector_construct_spec (pre ft : SD)
    (hnd : (pre.map Prod.fst).Nodup)
    (hall : pre.all (fun p => p.2.dtype.isInt ||
      ((lookupT ft p.1).bind (fun s => Tensor.sub s p.2)).isSome) = true) :
    (TaskVector.construct pre ft).isOk = true ∧
    ∀ v, TaskVector.construct pre ft = .ok v →
      ∀ k t, lookupT pre k = some t →
        lookupT v k = if t.dtype.isInt then none
          else (lookupT ft k).bind (fun s => Tensor.sub s t) := by
  induction pre with
  | nil =>
    refine ⟨rfl, ?_⟩
    intro v _ k t hkt
    cases hkt
  | cons hd rest ih =>
    obtain ⟨k0, t0⟩ := hd
    simp only [List.map_cons, List.nodup_cons] at hnd
    simp only [List.all_cons, Bool.and_eq_true] at hall
    obtain ⟨hhd, hrest⟩ := hall
    obtain ⟨iok, ispec⟩ := ih hnd.2 hrest
    by_cases hint : t0.dtype.isInt
    · constructor
      · simpa only [TaskVector.construct, if_pos hint] using iok
      · intro v hv k t hkt
        simp only [TaskVector.construct, if_pos hint] at hv
        simp only [lookupT] at hkt
        by_cases hk : k = k0
        · rw [if_pos hk] at hkt
          cases hkt
          rw [if_pos hint]
          exact construct_lookup_none ft k rest v hv (hk ▸ hnd.1)
        · rw [if_neg hk] at hkt
          exact ispec v hv k t hkt
    · simp only [hint, Bool.false_or, Option.isSome_iff_exists] at hhd
      obtain ⟨d, hd⟩ := hhd
      cases hft : lookupT ft k0 with
      | none => rw [hft] at hd; cases hd
      | some s =>
        rw [hft] at hd
        simp only [Option.some_bind] at hd
        cases hrc : TaskVector.construct rest ft with
        | error e => rw [hrc] at iok; cases iok
        | ok v0 =>
          constructor
          · simp only [TaskVector.construct, if_neg hint, hft, hd, hrc, Except.map,
              Except.isOk, Except.toBool]
          · intro v hv k t hkt
            simp only [TaskVector.construct, if_neg hint, hft, hd, hrc, Except.map,
              Except.ok.injEq] at hv
            subst hv
            simp only [lookupT] at hkt ⊢
            by_cases hk : k = k0
            · rw [if_pos hk] at hkt ⊢
              cases hkt
              rw [if_neg hint, hk, hft]
              simp only [Option.some_bind, hd]
            · rw [if_neg hk] at hkt ⊢
              exact ispec v0 hrc k t hkt

/-- Witness for C1: a concrete checkpoint pair with one float key and one
int64 key; the float key gets the difference, the int64 key is absent. -/
theorem taskvector_construct_spec_witness :
    lookupT [("w", (⟨[2], DType.float32, [2, 3]⟩ : Tensor))] "w"
      = some (⟨[2], DType.float32, [2, 3]⟩ : Tensor) ∧
    lookupT [("w", (⟨[2], DType.float32, [2, 3]⟩ : Tensor))] "idx" = none := by
  have h := taskvector_construct_spec
    [("w", (⟨[2], DType.float32, [1, 2]⟩ : Tensor)),
     ("idx", (⟨[1], DType.int64, [5]⟩ : Tensor))]
    [("w", (⟨[2], DType.float32, [3, 5]⟩ : Tensor)),
     ("idx", (⟨[1], DType.int64, [5]⟩ : Tensor))]
    (by decide) (by decide)
  have hok : TaskVector.construct
      [("w", (⟨[2], DType.float32, [1, 2]⟩ : Tensor)),
       ("idx", (⟨[1], DType.int64, [5]⟩ : Tensor))]
      [("w", (⟨[2], DType.float32, [3, 5]⟩ : Tensor)),
       ("idx", (⟨[1], DType.int64, [5]⟩ : Tensor))]
      = .ok [("w", (⟨[2], DType.float32, [2, 3]⟩ : Tensor))] := by
    simp [TaskVector.construct, lookupT, Tensor.sub, Tensor.binop, broadcastShape,
      bcastRev, bcastIdx, allIdx, Tensor.entry, flatIdx, DType.isInt, List.range,
      List.range.loop, Except.map]
    norm_num
  constructor
  · refine (h.2 _ hok "w" (⟨[2], DType.float32, [1, 2]⟩ : Tensor) (by decide)).trans ?_
    simp [lookupT, Tensor.sub, Tensor.binop, broadcastShape, bcastRev,
      bcastIdx, allIdx, Tensor.entry, flatIdx, DType.isInt, List.range,
      List.range.loop]
    norm_num
  · exact (h.2 _ hok "idx" (⟨[1], DType.int64, [5]⟩ : Tensor) (by decide)).trans
      (by simp [DType.isInt])

/-- C3: `a + b` (`TaskVector.__add__`, `TaskVector.add b a` in this
embedding since the recursion runs over `self = a`): it never fails on a
key-set mismatch, the result's key list is the intersection (every key of
`a` that is present in `b`, in `a`'s order), a diagnostic is recorded for
exactly the keys of `a` absent from `b`, and every shared key maps to
`a[key] + b[key]`.  The hypothesis `hall` is shape-compatibility of the
shared keys (torch addition succeeds). -/
theorem taskvector_add_spec (a b : SD)
    (hall : a.all (fun p =>
      ((lookupT b p.1).map (fun s => (Tensor.add p.2 s).isSome)).getD true) = true) :
    (TaskVector.add b a).isOk = true ∧
    ∀ m w, TaskVector.add b a = .ok (m, w) →
      (m.map Prod.fst = (a.map Prod.fst).filter (fun k => (lookupT b k).isSome)) ∧
      (w = (a.map Prod.fst).filter (fun k => (lookupT b k).isNone)) ∧
      ∀ k t s, lookupT a k = some t → lookupT b k = some s →
        lookupT m k = Tensor.add t s := by
  induction a with
  | nil =>
    refine ⟨rfl, ?_⟩
    intro m w h
    simp only [TaskVector.add, Except.ok.injEq, Prod.mk.injEq] at h
    obtain ⟨h1, h2⟩ := h
    subst h1
    subst h2
    refine ⟨rfl, rfl, ?_⟩
    intro k t s hat
    cases hat
  | cons hd rest ih =>
    obtain ⟨k0, t0⟩ := hd
    simp only [List.all_cons, Bool.and_eq_true] at hall
    obtain ⟨hhd, hrest⟩ := hall
    obtain ⟨iok, ispec⟩ := ih hrest
    cases hrc : TaskVector.add b rest with
    | error e => rw [hrc] at iok; cases iok
    | ok p =>
      obtain ⟨m0, w0⟩ := p
      obtain ⟨hkeys, hwarn, hval⟩ := ispec m0 w0 hrc
      cases hb : lookupT b k0 with
      | none =>
        constructor
        · simp only [TaskVector.add, hb, hrc, Except.map, Except.isOk, Except.toBool]
        · intro m w h
          simp only [TaskVector.add, hb, hrc, Except.map, Except.ok.injEq,
            Prod.mk.injEq] at h
          obtain ⟨h1, h2⟩ := h
          subst h1
          subst h2
          refine ⟨?_, ?_, ?_⟩
          · simp only [List.map_cons, List.filter_cons, hb, Option.isSome_none,
              Bool.false_eq_true, if_false]
            exact hkeys
          · simp only [List.map_cons, List.filter_cons, hb, Option.isNone_none,
              if_true]
            exact congrArg (k0 :: ·) hwarn
          · intro k t s hat hbs
            simp only [lookupT] at hat
            by_cases hk : k = k0
            · rw [hk, hb] at hbs
              cases hbs
            · rw [if_neg hk] at hat
              exact hval k t s hat hbs
      | some s0 =>
        simp only [hb, Option.map_some', Option.getD_some,
          Option.isSome_iff_exists] at hhd
        obtain ⟨u, hu⟩ := hhd
        constructor
        · simp only [TaskVector.add, hb, hu, hrc, Except.map, Except.isOk,
            Except.toBool]
        · intro m w h
          simp only [TaskVector.add, hb, hu, hrc, Except.map, Except.ok.injEq,
            Prod.mk.injEq] at h
          obtain ⟨h1, h2⟩ := h
          subst h1
          subst h2
          refine ⟨?_, ?_, ?_⟩
          · simp only [List.map_cons, List.filter_cons, hb, Option.isSome_some,
              if_true]
            exact congrArg (k0 :: ·) hkeys
          · simp only [List.map_cons, List.filter_cons, hb, Option.isNone_some,
              Bool.false_eq_true, if_false]
            exact hwarn
          · intro k t s hat hbs
            simp only [lookupT] at hat ⊢
            by_cases hk : k = k0
            · rw [if_pos hk] at hat ⊢
              cases hat
              rw [hk, hb] at hbs
              cases hbs
              exact hu.symm
            · rw [if_neg hk] at hat ⊢
              exact hval k t s hat hbs

/-- Witness for C3: `a` has keys `w, x`, `b` only `w`; the sum keeps `w`
with the elementwise sum, drops `x`, and records the diagnostic for `x`. -/
theorem taskvector_add_spec_witness :
    List.map Prod.fst [("w", (⟨[1], DType.float32, [5]⟩ : Tensor))] = ["w"] ∧
    (["x"] : List String) = ["x"] ∧
    lookupT [("w", (⟨[1], DType.float32, [5]⟩ : Tensor))] "w"
      = some (⟨[1], DType.float32, [5]⟩ : Tensor) := by
  have h := taskvector_add_spec
    [("w", (⟨[1], DType.float32, [2]⟩ : Tensor)),
     ("x", (⟨[1], DType.float32, [7]⟩ : Tensor))]
    [("w", (⟨[1], DType.float32, [3]⟩ : Tensor))]
    (by decide)
  have hok : TaskVector.add
      [("w", (⟨[1], DType.float32, [3]⟩ : Tensor))]
      [("w", (⟨[1], DType.float32, [2]⟩ : Tensor)),
       ("x", (⟨[1], DType.float32, [7]⟩ : Tensor))]
      = .ok ([("w", (⟨[1], DType.float32, [5]⟩ : Tensor))], ["x"]) := by
    simp [TaskVector.add, lookupT, Tensor.add, Tensor.binop, broadcastShape,
      bcastRev, bcastIdx, allIdx, Tensor.entry, flatIdx, List.range,
      List.range.loop, Except.map]
    norm_num
  obtain ⟨hkeys, hwarn, hval⟩ := h.2 _ _ hok
  refine ⟨hkeys.trans (by decide), hwarn.trans (by decide), ?_⟩
  refine (hval "w" (⟨[1], DType.float32, [2]⟩ : Tensor)
    (⟨[1], DType.float32, [3]⟩ : Tensor) (by decide) (by decide)).trans ?_
  simp [Tensor.add, Tensor.binop, broadcastShape, bcastRev, bcastIdx, allIdx,
    Tensor.entry, flatIdx, List.range, List.range.loop]
  norm_num

/-- C2: `apply_to(base, c)` produces a new parameter map that, for every key
of the base, holds `base[key] + c * vec[key]` when the key exists in the
vector, and the base's original value (with a diagnostic recorded, not an
error) when it does not; the key list of the result is exactly the base's.
`applyToDefault` records that the omitted `scaling_coef` defaults to `1.0`.
The hypothesis `hall` is shape-compatibility of the shared keys. -/
theorem taskvector_apply_to_spec (vec base : SD) (c : ℚ)
    (hall : base.all (fun p =>
      ((lookupT vec p.1).map
        (fun d => (Tensor.add p.2 (Tensor.smul c d)).isSome)).getD true) = true) :
    (TaskVector.applyTo vec c base).isOk = true ∧
    TaskVector.applyToDefault vec base = TaskVector.applyTo vec 1 base ∧
    ∀ m w, TaskVector.applyTo vec c base = .ok (m, w) →
      (m.map Prod.fst = base.map Prod.fst) ∧
      (w = (base.map Prod.fst).filter (fun k => (lookupT vec k).isNone)) ∧
      (∀ k t d, lookupT base k = some t → lookupT vec k = some d →
        lookupT m k = Tensor.add t (Tensor.smul c d)) ∧
      (∀ k t, lookupT base k = some t → lookupT vec k = none →
        lookupT m k = some t) := by
  induction base with
  | nil =>
    refine ⟨rfl, rfl, ?_⟩
    intro m w h
    simp only [TaskVector.applyTo, Except.ok.injEq, Prod.mk.injEq] at h
    obtain ⟨h1, h2⟩ := h
    subst h1
    subst h2
    refine ⟨rfl, rfl, ?_, ?_⟩
    · intro k t d hkt _
      cases hkt
    · intro k t hkt _
      cases hkt
  | cons hd rest ih =>
    obtain ⟨k0, t0⟩ := hd
    simp only [List.all_cons, Bool.and_eq_true] at hall
    obtain ⟨hhd, hrest⟩ := hall
    obtain ⟨iok, _, ispec⟩ := ih hrest
    cases hrc : TaskVector.applyTo vec c rest with
    | error e => rw [hrc] at iok; cases iok
    | ok p =>
      obtain ⟨m0, w0⟩ := p
      obtain ⟨hkeys, hwarn, hval, hkeep⟩ := ispec m0 w0 hrc
      cases hb : lookupT vec k0 with
      | none =>
        refine ⟨?_, rfl, ?_⟩
        · simp only [TaskVector.applyTo, hb, hrc, Except.map, Except.isOk,
            Except.toBool]
        · intro m w h
          simp only [TaskVector.applyTo, hb, hrc, Except.map, Except.ok.injEq,
            Prod.mk.injEq] at h
          obtain ⟨h1, h2⟩ := h
          subst h1
          subst h2
          refine ⟨?_, ?_, ?_, ?_⟩
          · simp only [List.map_cons]
            exact congrArg (k0 :: ·) hkeys
          · simp only [List.map_cons, List.filter_cons, hb, Option.isNone_none,
              if_true]
            exact congrArg (k0 :: ·) hwarn
          · intro k t d hkt hkd
            simp only [lookupT] at hkt ⊢
            by_cases hk : k = k0
            · rw [hk, hb] at hkd
              cases hkd
            · rw [if_neg hk] at hkt ⊢
              exact hval k t d hkt hkd
          · intro k t hkt hkd
            simp only [lookupT] at hkt ⊢
            by_cases hk : k = k0
            · rw [if_pos hk] at hkt ⊢
              cases hkt
              rfl
            · rw [if_neg hk] at hkt ⊢
              exact hkeep k t hkt hkd
      | some d0 =>
        simp only [hb, Option.map_some', Option.getD_some,
          Option.isSome_iff_exists] at hhd
        obtain ⟨u, hu⟩ := hhd
        refine ⟨?_, rfl, ?_⟩
        · simp only [TaskVector.applyTo, hb, hu, hrc, Except.map, Except.isOk,
            Except.toBool]
        · intro m w h
          simp only [TaskVector.applyTo, hb, hu, hrc, Except.map, Except.ok.injEq,
            Prod.mk.injEq] at h
          obtain ⟨h1, h2⟩ := h
          subst h1
          subst h2
          refine ⟨?_, ?_, ?_, ?_⟩
          · simp only [List.map_cons]
            exact congrArg (k0 :: ·) hkeys
          · simp only [List.map_cons, List.filter_cons, hb, Option.isNone_some,
              Bool.false_eq_true, if_false]
            exact hwarn
          · intro k t d hkt hkd
            simp only [lookupT] at hkt ⊢
            by_cases hk : k = k0
            · rw [if_pos hk] at hkt ⊢
              cases hkt
              rw [hk, hb] at hkd
              cases hkd
              exact hu.symm
            · rw [if_neg hk] at hkt ⊢
              exact hval k t d hkt hkd
          · intro k t hkt hkd
            simp only [lookupT] at hkt ⊢
            by_cases hk : k = k0
            · rw [hk, hb] at hkd
              cases hkd
            · rw [if_neg hk] at hkt ⊢
              exact hkeep k t hkt hkd

/-- Witness for C2 at `c = 3`: the shared key `w` becomes `1 + 3 * 2 = 7`,
the vector-missing key `u` keeps its base value and is warned about. -/
theorem taskvector_apply_to_spec_witness :
    List.map Prod.fst
      [("w", (⟨[1], DType.float32, [7]⟩ : Tensor)),
       ("u", (⟨[1], DType.float32, [9]⟩ : Tensor))] = ["w", "u"] ∧
    (["u"] : List String) = ["u"] ∧
    lookupT [("w", (⟨[1], DType.float32, [7]⟩ : Tensor)),
       ("u", (⟨[1], DType.float32, [9]⟩ : Tensor))] "w"
      = some (⟨[1], DType.float32, [7]⟩ : Tensor) ∧
    lookupT [("w", (⟨[1], DType.float32, [7]⟩ : Tensor)),
       ("u", (⟨[1], DType.float32, [9]⟩ : Tensor))] "u"
      = some (⟨[1], DType.float32, [9]⟩ : Tensor) ∧
    TaskVector.applyToDefault
      [("w", (⟨[1], DType.float32, [2]⟩ : Tensor))]
      [("w", (⟨[1], DType.float32, [1]⟩ : Tensor)),
       ("u", (⟨[1], DType.float32, [9]⟩ : Tensor))]
      = TaskVector.applyTo [("w", (⟨[1], DType.float32, [2]⟩ : Tensor))] 1
        [("w", (⟨[1], DType.float32, [1]⟩ : Tensor)),
         ("u", (⟨[1], DType.float32, [9]⟩ : Tensor))] := by
  have h := taskvector_apply_to_spec
    [("w", (⟨[1], DType.float32, [2]⟩ : Tensor))]
    [("w", (⟨[1], DType.float32, [1]⟩ : Tensor)),
     ("u", (⟨[1], DType.float32, [9]⟩ : Tensor))]
    3 (by decide)
  have hok : TaskVector.applyTo
      [("w", (⟨[1], DType.float32, [2]⟩ : Tensor))] 3
      [("w", (⟨[1], DType.float32, [1]⟩ : Tensor)),
       ("u", (⟨[1], DType.float32, [9]⟩ : Tensor))]
      = .ok ([("w", (⟨[1], DType.float32, [7]⟩ : Tensor)),
              ("u", (⟨[1], DType.float32, [9]⟩ : Tensor))], ["u"]) := by
    simp [TaskVector.applyTo, lookupT, Tensor.add, Tensor.smul, Tensor.binop,
      broadcastShape, bcastRev, bcastIdx, allIdx, Tensor.entry, flatIdx,
      List.range, List.range.loop, Except.map]
    norm_num
  obtain ⟨hkeys, hwarn, hval, hkeep⟩ := h.2.2 _ _ hok
  refine ⟨hkeys.trans (by decide), hwarn.trans (by decide), ?_, ?_, h.2.1⟩
  · refine (hval "w" (⟨[1], DType.float32, [1]⟩ : Tensor)
      (⟨[1], DType.float32, [2]⟩ : Tensor) (by decide) (by decide)).trans ?_
    simp [Tensor.add, Tensor.smul, Tensor.binop, broadcastShape, bcastRev,
      bcastIdx, allIdx, Tensor.entry, flatIdx, List.range, List.range.loop]
    norm_num
  · exact hkeep "u" (⟨[1], DType.float32, [9]⟩ : Tensor) (by decide) (by decide)

theorem Except.isOk_map {ε α β : Type} (f : α → β) (e : Except ε α) :
    (Except.map f e).isOk = e.isOk := by
  cases e <;> rfl

theorem binop_eq_none {f : ℚ → ℚ → ℚ} {a b : Tensor}
    (h : broadcastShape a.shape b.shape = none) : Tensor.binop f a b = none := by
  simp only [Tensor.binop, h, Option.map_none']

/-- Counterexample to C6 as stated: a key present in both checkpoints with
mismatched shapes `[1]` and `[3]` does NOT cause a fatal error — torch
broadcasting lets `TaskVector.__init__` silently succeed, broadcasting the
single element of the pretrained tensor across the finetuned one. -/
theorem shape_mismatch_counterexample :
    TaskVector.construct [("w", (⟨[1], DType.float32, [0]⟩ : Tensor))]
      [("w", (⟨[3], DType.float32, [1, 2, 3]⟩ : Tensor))]
      = .ok [("w", (⟨[3], DType.float32, [1, 2, 3]⟩ : Tensor))] := by
  simp [TaskVector.construct, lookupT, Tensor.sub, Tensor.binop, broadcastShape,
    bcastRev, bcastIdx, allIdx, Tensor.entry, flatIdx, DType.isInt, List.range,
    List.range.loop, Except.map]

theorem construct_shape_fatal (ft : SD) (k : String) (t s : Tensor)
    (hbc : broadcastShape s.shape t.shape = none) :
    ∀ (pre : SD), lookupT pre k = some t → t.dtype.isInt = false →
      lookupT ft k = some s → (TaskVector.construct pre ft).isOk = false := by
  intro pre
  induction pre with
  | nil => intro hkt; cases hkt
  | cons hd rest ih =>
    obtain ⟨k0, t0⟩ := hd
    intro hkt hint hft
    simp only [lookupT] at hkt
    by_cases hk : k = k0
    · rw [if_pos hk] at hkt
      injection hkt with hte
      subst hte
      have hsub : Tensor.sub s t0 = none := binop_eq_none hbc
      simp only [TaskVector.construct, hint, Bool.false_eq_true, if_false,
        hk ▸ hft, hsub, Except.isOk, Except.toBool]
    · rw [if_neg hk] at hkt
      have hrec := ih hkt hint hft
      by_cases hi : t0.dtype.isInt
      · simpa only [TaskVector.construct, if_pos hi] using hrec
      · cases hv : lookupT ft k0 with
        | none =>
          simp only [TaskVector.construct, if_neg hi, hv, Except.isOk,
            Except.toBool]
        | some s0 =>
          cases hs : Tensor.sub s0 t0 with
          | none =>
            simp only [TaskVector.construct, if_neg hi, hv, hs, Except.isOk,
              Except.toBool]
          | some d0 =>
            simp only [TaskVector.construct, if_neg hi, hv, hs, Except.isOk_map]
            exact hrec

theorem add_shape_fatal (b : SD) (k : String) (t s : Tensor)
    (hbc : broadcastShape t.shape s.shape = none) :
    ∀ (a : SD), lookupT a k = some t → lookupT b k = some s →
      (TaskVector.add b a).isOk = false := by
  intro a
  induction a with
  | nil => intro hkt; cases hkt
  | cons hd rest ih =>
    obtain ⟨k0, t0⟩ := hd
    intro hkt hkb
    simp only [lookupT] at hkt
    by_cases hk : k = k0
    · rw [if_pos hk] at hkt
      injection hkt with hte
      subst hte
      have hsum : Tensor.add t0 s = none := binop_eq_none hbc
      simp only [TaskVector.add, hk ▸ hkb, hsum, Except.isOk, Except.toBool]
    · rw [if_neg hk] at hkt
      have hrec := ih hkt hkb
      cases hv : lookupT b k0 with
      | none =>
        simp only [TaskVector.add, hv, Except.isOk_map]
        exact hrec
      | some s0 =>
        cases ha : Tensor.add t0 s0 with
        | none => simp only [TaskVector.add, hv, ha, Except.isOk, Except.toBool]
        | some u =>
          simp only [TaskVector.add, hv, ha, Except.isOk_map]
          exact hrec

theorem applyTo_shape_fatal (vec : SD) (c : ℚ) (k : String) (t s : Tensor)
    (hbc : broadcastShape t.shape s.shape = none) :
    ∀ (base : SD), lookupT base k = some t → lookupT vec k = some s →
      (TaskVector.applyTo vec c base).isOk = false := by
  intro base
  induction base with
  | nil => intro hkt; cases hkt
  | cons hd rest ih =>
    obtain ⟨k0, t0⟩ := hd
    intro hkt hkd
    simp only [lookupT] at hkt
    by_cases hk : k = k0
    · rw [if_pos hk] at hkt
      injection hkt with hte
      subst hte
      have hsum : Tensor.add t0 (Tensor.smul c s) = none := by
        refine binop_eq_none ?_
        simpa only [Tensor.smul] using hbc
      simp only [TaskVector.applyTo, hk ▸ hkd, hsum, Except.isOk, Except.toBool]
    · rw [if_neg hk] at hkt
      have hrec := ih hkt hkd
      cases hv : lookupT vec k0 with
      | none =>
        simp only [TaskVector.applyTo, hv, Except.isOk_map]
        exact hrec
      | some d0 =>
        cases ha : Tensor.add t0 (Tensor.smul c d0) with
        | none =>
          simp only [TaskVector.applyTo, hv, ha, Except.isOk, Except.toBool]
        | some u =>
          simp only [TaskVector.applyTo, hv, ha, Except.isOk_map]
          exact hrec

/-- C6 amended: in each of `construct`, `add` and `apply_to`, a key present
in both operands whose tensor shapes are NOT broadcast-compatible causes a
fatal error (the operation returns an error, never a silently truncated
result).  Broadcast-compatible mismatched shapes, however, are silently
broadcast by torch, as `shape_mismatch_counterexample` shows — the original
claim is false for those. -/
theorem shape_mismatch_fatal (pre ft a b vec base : SD) (c : ℚ) (k : String)
    (t s : Tensor) (hbc : broadcastShape s.shape t.shape = none)
    (hbc2 : broadcastShape t.shape s.shape = none) :
    (lookupT pre k = some t → t.dtype.isInt = false → lookupT ft k = some s →
      (TaskVector.construct pre ft).isOk = false)
    ∧ (lookupT a k = some t → lookupT b k = some s →
      (TaskVector.add b a).isOk = false)
    ∧ (lookupT base k = some t → lookupT vec k = some s →
      (TaskVector.applyTo vec c base).isOk = false) :=
  ⟨fun h1 h2 h3 => construct_shape_fatal ft k t s hbc pre h1 h2 h3,
   fun h1 h2 => add_shape_fatal b k t s hbc2 a h1 h2,
   fun h1 h2 => applyTo_shape_fatal vec c k t s hbc2 base h1 h2⟩

/-- Witness for the amended C6 at shapes `[2]` vs `[3]` (not
broadcast-compatible): all three operations fail. -/
theorem shape_mismatch_fatal_witness :
    (TaskVector.construct [("w", (⟨[2], DType.float32, [0, 0]⟩ : Tensor))]
      [("w", (⟨[3], DType.float32, [1, 2, 3]⟩ : Tensor))]).isOk = false ∧
    (TaskVector.add [("w", (⟨[3], DType.float32, [1, 2, 3]⟩ : Tensor))]
      [("w", (⟨[2], DType.float32, [0, 0]⟩ : Tensor))]).isOk = false ∧
    (TaskVector.applyTo [("w", (⟨[3], DType.float32, [1, 2, 3]⟩ : Tensor))] 2
      [("w", (⟨[2], DType.float32, [0, 0]⟩ : Tensor))]).isOk = false := by
  have h := shape_mismatch_fatal
    [("w", (⟨[2], DType.float32, [0, 0]⟩ : Tensor))]
    [("w", (⟨[3], DType.float32, [1, 2, 3]⟩ : Tensor))]
    [("w", (⟨[2], DType.float32, [0, 0]⟩ : Tensor))]
    [("w", (⟨[3], DType.float32, [1, 2, 3]⟩ : Tensor))]
    [("w", (⟨[3], DType.float32, [1, 2, 3]⟩ : Tensor))]
    [("w", (⟨[2], DType.float32, [0, 0]⟩ : Tensor))]
    2 "w" (⟨[2], DType.float32, [0, 0]⟩ : Tensor)
    (⟨[3], DType.float32, [1, 2, 3]⟩ : Tensor) (by decide) (by decide)
  exact ⟨h.1 (by decide) (by decide) (by decide),
    h.2.1 (by decide) (by decide), h.2.2 (by decide) (by decide)⟩

theorem flinear_eq_some {x W y : Tensor} (h : flinear x W = some y) :
    ∃ m k p, x.shape = [m, k] ∧ W.shape = [p, k] ∧ y.shape = [m, p] := by
  simp only [flinear] at h
  split at h
  next m k p q hx hW =>
    split at h
    next hkq =>
      subst hkq
      cases h
      exact ⟨m, k, p, hx, hW, rfl⟩
    next => cases h
  next => cases h

theorem flinear_none {x W : Tensor} {m k p q : ℕ} (hx : x.shape = [m, k])
    (hW : W.shape = [p, q]) (hkq : k ≠ q) : flinear x W = none := by
  simp only [flinear, hx, hW, if_neg hkq]

theorem matmul_eq_some {a b y : Tensor} (h : a.matmul b = some y) :
    ∃ m k n, a.shape = [m, k] ∧ b.shape = [k, n] ∧ y.shape = [m, n] := by
  simp only [Tensor.matmul] at h
  split at h
  next m k k2 n ha hb =>
    split at h
    next hkk =>
      subst hkk
      cases h
      exact ⟨m, k, n, ha, hb, rfl⟩
    next => cases h
  next => cases h

theorem t2_eq_some {t y : Tensor} (h : t.t2 = some y) :
    ∃ m p, t.shape = [m, p] ∧ y.shape = [p, m] := by
  simp only [Tensor.t2] at h
  split at h
  next m p ht =>
    cases h
    exact ⟨m, p, ht, rfl⟩
  next => cases h

theorem init_U (inF outF r : ℕ) (alpha : ℚ) (bias : Bool) (AData : List ℚ) :
    (LoRALayer.init inF outF r alpha bias AData).U = eyeT inF := by
  unfold LoRALayer.init
  split <;> rfl

theorem init_r (inF outF r : ℕ) (alpha : ℚ) (bias : Bool) (AData : List ℚ) :
    (LoRALayer.init inF outF r alpha bias AData).r = r := by
  unfold LoRALayer.init
  split <;> rfl

theorem init_bias (inF outF r : ℕ) (alpha : ℚ) (bias : Bool) (AData : List ℚ) :
    (LoRALayer.init inF outF r alpha bias AData).bias = bias := by
  unfold LoRALayer.init
  split <;> rfl

theorem init_B_pos (inF outF r : ℕ) (alpha : ℚ) (bias : Bool) (AData : List ℚ)
    (hr : r > 0) :
    (LoRALayer.init inF outF r alpha bias AData).B = zerosT [outF, r] := by
  unfold LoRALayer.init
  rw [if_pos hr]

theorem init_A_pos (inF outF r : ℕ) (alpha : ℚ) (bias : Bool) (AData : List ℚ)
    (hr : r > 0) :
    (LoRALayer.init inF outF r alpha bias AData).A
      = ⟨[r, inF], .float32, AData⟩ := by
  unfold LoRALayer.init
  rw [if_pos hr]

theorem init_alpha (inF outF r : ℕ) (alpha : ℚ) (bias : Bool) (AData : List ℚ) :
    (LoRALayer.init inF outF r alpha bias AData).alpha = alpha := by
  unfold LoRALayer.init
  split <;> rfl

theorem init_D_zero (inF outF r : ℕ) (alpha : ℚ) (bias : Bool) (AData : List ℚ)
    (hr : ¬ r > 0) :
    (LoRALayer.init inF outF r alpha bias AData).D = zerosT [inF, outF] := by
  unfold LoRALayer.init
  rw [if_neg hr]

theorem init_b_zero (inF outF r : ℕ) (alpha : ℚ) (AData : List ℚ)
    (hr : ¬ r > 0) :
    (LoRALayer.init inF outF r alpha true AData).b = zerosT [outF] := by
  unfold LoRALayer.init
  rw [if_neg hr]
  rfl

/-- C10: `LoRALayer.forward` only succeeds when `in_features = out_features`:
for a layer with `in_features ≠ out_features`, `forward` fails with a shape
mismatch on every input — in the low-rank branch the square `U` (of shape
`(in_features, in_features)`) is applied after the `(out_features, r) x
(r, in_features)` correction, and in the dense branch `D` of shape
`(in_features, out_features)` is used as a linear weight in a position
requiring `(out_features, in_features)`. -/
theorem lora_forward_requires_square (inF outF r : ℕ) (alpha : ℚ) (bias : Bool)
    (AData : List ℚ) (inputs : Tensor) (h : inF ≠ outF) :
    (LoRALayer.init inF outF r alpha bias AData).forward inputs = none := by
  by_cases hr : r > 0
  · simp only [LoRALayer.forward, init_r, hr, if_pos]
    cases h1 : flinear inputs (LoRALayer.init inF outF r alpha bias AData).U with
    | none => rfl
    | some xU =>
      simp only [Option.some_bind]
      cases h2 : (LoRALayer.init inF outF r alpha bias AData).B.matmul
          (LoRALayer.init inF outF r alpha bias AData).A with
      | none => rfl
      | some BA =>
        simp only [Option.some_bind]
        cases h3 : flinear xU BA with
        | none => rfl
        | some xUW =>
          simp only [Option.some_bind]
          cases h4 : (LoRALayer.init inF outF r alpha bias AData).U.t2 with
          | none => rfl
          | some Ut =>
            simp only [Option.some_bind]
            obtain ⟨m2, k2, n2, ha2, hb2, hy2⟩ := matmul_eq_some h2
            rw [init_B_pos inF outF r alpha bias AData hr] at ha2
            rw [init_A_pos inF outF r alpha bias AData hr] at hb2
            have ha2e : m2 = outF ∧ k2 = r := by
              have hEq : ([m2, k2] : List ℕ) = [outF, r] := ha2.symm
              simp only [List.cons.injEq, and_true] at hEq
              exact hEq
            have hb2e : k2 = r ∧ n2 = inF := by
              have hEq : ([k2, n2] : List ℕ) = [r, inF] := hb2.symm
              simp only [List.cons.injEq, and_true] at hEq
              exact hEq
            obtain ⟨hm2, -⟩ := ha2e
            obtain ⟨-, hn2⟩ := hb2e
            rw [hm2, hn2] at hy2
            obtain ⟨m3, k3, p3, hx3, hW3, hy3⟩ := flinear_eq_some h3
            have hW3e : p3 = outF ∧ k3 = inF := by
              rw [hy2] at hW3
              have hEq : ([p3, k3] : List ℕ) = [outF, inF] := hW3.symm
              simp only [List.cons.injEq, and_true] at hEq
              exact hEq
            obtain ⟨hp3, -⟩ := hW3e
            rw [hp3] at hy3
            obtain ⟨m4, p4, ht4, hy4⟩ := t2_eq_some h4
            rw [init_U] at ht4
            have ht4e : m4 = inF ∧ p4 = inF := by
              have hEq : ([m4, p4] : List ℕ) = [inF, inF] := ht4.symm
              simp only [List.cons.injEq, and_true] at hEq
              exact hEq
            obtain ⟨hm4, hp4⟩ := ht4e
            rw [hm4, hp4] at hy4
            rw [flinear_none hy3 hy4 (Ne.symm h)]
            rfl
  · simp only [LoRALayer.forward, init_r, hr, if_neg, if_false]
    have hD := init_D_zero inF outF r alpha bias AData hr
    have step2none : ∀ xU : Tensor, flinear inputs
        (LoRALayer.init inF outF r alpha bias AData).U = some xU →
        flinear xU (LoRALayer.init inF outF r alpha bias AData).D = none := by
      intro xU h1
      obtain ⟨m, k, p, hx, hW, hy⟩ := flinear_eq_some h1
      rw [init_U] at hW
      have hWe : p = inF ∧ k = inF := by
        have hEq : ([p, k] : List ℕ) = [inF, inF] := hW.symm
        simp only [List.cons.injEq, and_true] at hEq
        exact hEq
      obtain ⟨hp, hk⟩ := hWe
      rw [hp] at hy
      exact flinear_none hy (by rw [hD]; rfl) h
    cases hbias : (LoRALayer.init inF outF r alpha bias AData).bias with
    | true =>
      simp only [if_true]
      cases h1 : flinear inputs (LoRALayer.init inF outF r alpha bias AData).U with
      | none => rfl
      | some xU =>
        simp only [Option.some_bind]
        rw [step2none xU h1]
        rfl
    | false =>
      simp only [Bool.false_eq_true, if_false]
      cases h1 : flinear inputs (LoRALayer.init inF outF r alpha bias AData).U with
      | none => rfl
      | some xU =>
        simp only [Option.some_bind]
        rw [step2none xU h1]
        rfl

/-- Witness for C10: a `1 -> 2` layer fails on a concrete batch. -/
theorem lora_forward_requires_square_witness :
    (LoRALayer.init 1 2 1 1 true [0]).forward
      (⟨[1, 1], DType.float32, [1]⟩ : Tensor) = none :=
  lora_forward_requires_square 1 2 1 1 true [0]
    (⟨[1, 1], DType.float32, [1]⟩ : Tensor) (by decide)

theorem entry_zero {t : Tensor} (h : ∀ x ∈ t.data, x = 0) (idx : List ℕ) :
    t.entry idx = 0 := by
  unfold Tensor.entry List.getD
  cases hq : t.data.get? (flatIdx t.shape idx) with
  | none => rfl
  | some y => exact h y (List.get?_mem hq)

theorem map_zero_replicate {α : Type} (l : List α) (f : α → ℚ)
    (h : ∀ a ∈ l, f a = 0) : l.map f = List.replicate l.length 0 := by
  induction l with
  | nil => rfl
  | cons a rest ih =>
    simp only [List.map_cons, List.length_cons, List.replicate_succ,
      h a (List.mem_cons_self a rest)]
    exact congrArg (List.cons 0) (ih (fun x hx => h x (List.mem_cons_of_mem a hx)))

theorem flatMap_replicate_zero (m p : ℕ) (g : ℕ → List ℚ)
    (h : ∀ i, g i = List.replicate p 0) :
    (List.range m).flatMap g = List.replicate (m * p) 0 := by
  induction m with
  | zero => simp
  | succ m ih =>
    rw [List.range_succ, List.flatMap_append, ih, List.flatMap_cons,
      List.flatMap_nil, List.append_nil, h m, ← List.replicate_add]
    exact congrArg (List.replicate · 0) (by ring)

theorem allIdx_length (s : List ℕ) : (allIdx s).length = s.prod := by
  induction s with
  | nil => rfl
  | cons d ds ih =>
    simp only [allIdx, List.length_flatMap, List.map_map, List.prod_cons]
    have : ∀ i, ((allIdx ds).map (i :: ·)).length = ds.prod := by
      intro i
      rw [List.length_map, ih]
    calc ((List.range d).map fun i => (List.map (i :: ·) (allIdx ds)).length).sum
        = ((List.range d).map fun _ => ds.prod).sum := by
          refine congrArg List.sum (List.map_congr_left ?_)
          intro i _
          rw [List.length_map, ih]
      _ = d * ds.prod := by
          simp [List.map_const', List.sum_replicate, smul_eq_mul]

theorem flinear_of_shapes {x W : Tensor} {m k p : ℕ} (hx : x.shape = [m, k])
    (hW : W.shape = [p, k]) :
    flinear x W = some ⟨[m, p], x.dtype,
      (List.range m).flatMap (fun i => (List.range p).map (fun j =>
        ((List.range k).map (fun l => x.entry [i, l] * W.entry [j, l])).sum))⟩ := by
  simp [flinear, hx, hW]

theorem flinear_zero_weight {x W : Tensor} {m k p : ℕ} (hx : x.shape = [m, k])
    (hW : W.shape = [p, k]) (hz : ∀ y ∈ W.data, y = 0) :
    flinear x W = some ⟨[m, p], x.dtype, List.replicate (m * p) 0⟩ := by
  rw [flinear_of_shapes hx hW]
  refine congrArg some ?_
  refine congrArg (Tensor.mk [m, p] x.dtype) ?_
  refine flatMap_replicate_zero m p _ (fun i => ?_)
  rw [show ((List.range p).map (fun j =>
      ((List.range k).map (fun l => x.entry [i, l] * W.entry [j, l])).sum))
      = (List.range p).map (fun _ => (0 : ℚ)) from ?_]
  · rw [List.map_const', List.length_range]
  · refine List.map_congr_left (fun j _ => ?_)
    refine List.sum_eq_zero (fun v hv => ?_)
    simp only [List.mem_map] at hv
    obtain ⟨l, -, rfl⟩ := hv
    rw [entry_zero hz, mul_zero]

theorem flinear_zero_input {x W : Tensor} {m k p : ℕ} (hx : x.shape = [m, k])
    (hW : W.shape = [p, k]) (hz : ∀ y ∈ x.data, y = 0) :
    flinear x W = some ⟨[m, p], x.dtype, List.replicate (m * p) 0⟩ := by
  rw [flinear_of_shapes hx hW]
  refine congrArg some ?_
  refine congrArg (Tensor.mk [m, p] x.dtype) ?_
  refine flatMap_replicate_zero m p _ (fun i => ?_)
  rw [show ((List.range p).map (fun j =>
      ((List.range k).map (fun l => x.entry [i, l] * W.entry [j, l])).sum))
      = (List.range p).map (fun _ => (0 : ℚ)) from ?_]
  · rw [List.map_const', List.length_range]
  · refine List.map_congr_left (fun j _ => ?_)
    refine List.sum_eq_zero (fun v hv => ?_)
    simp only [List.mem_map] at hv
    obtain ⟨l, -, rfl⟩ := hv
    rw [entry_zero hz, zero_mul]

theorem matmul_zero_left {a b : Tensor} {m k n : ℕ} (ha : a.shape = [m, k])
    (hb : b.shape = [k, n]) (hz : ∀ y ∈ a.data, y = 0) :
    a.matmul b = some ⟨[m, n], a.dtype, List.replicate (m * n) 0⟩ := by
  have hmm : a.matmul b = some ⟨[m, n], a.dtype,
      (List.range m).flatMap (fun i => (List.range n).map (fun j =>
        ((List.range k).map (fun l => a.entry [i, l] * b.entry [l, j])).sum))⟩ := by
    simp [Tensor.matmul, ha, hb]
  rw [hmm]
  refine congrArg some ?_
  refine congrArg (Tensor.mk [m, n] a.dtype) ?_
  refine flatMap_replicate_zero m n _ (fun i => ?_)
  rw [show ((List.range n).map (fun j =>
      ((List.range k).map (fun l => a.entry [i, l] * b.entry [l, j])).sum))
      = (List.range n).map (fun _ => (0 : ℚ)) from ?_]
  · rw [List.map_const', List.length_range]
  · refine List.map_congr_left (fun j _ => ?_)
    refine List.sum_eq_zero (fun v hv => ?_)
    simp only [List.mem_map] at hv
    obtain ⟨l, -, rfl⟩ := hv
    rw [entry_zero hz, zero_mul]

theorem t2_of_shape {t : Tensor} {m p : ℕ} (h : t.shape = [m, p]) :
    t.t2 = some ⟨[p, m], t.dtype,
      (List.range p).flatMap (fun i => (List.range m).map (fun j =>
        t.entry [j, i]))⟩ := by
  simp [Tensor.t2, h]

theorem add_zero_zero {a b : Tensor} {sh : List ℕ}
    (hsh : broadcastShape a.shape b.shape = some sh)
    (ha0 : ∀ x ∈ a.data, x = 0) (hb0 : ∀ x ∈ b.data, x = 0) :
    Tensor.add a b = some ⟨sh, a.dtype, List.replicate sh.prod 0⟩ := by
  simp only [Tensor.add, Tensor.binop, hsh, Option.map_some']
  refine congrArg some ?_
  refine congrArg (Tensor.mk sh a.dtype) ?_
  rw [show ((allIdx sh).map (fun ix =>
      a.entry (bcastIdx a.shape ix) + b.entry (bcastIdx b.shape ix)))
      = (allIdx sh).map (fun _ => (0 : ℚ)) from ?_]
  · rw [List.map_const', allIdx_length]
  · refine List.map_congr_left (fun ix _ => ?_)
    rw [entry_zero ha0, entry_zero hb0, add_zero]

theorem smul_replicate_zero (c : ℚ) (sh : List ℕ) (d : DType) (N : ℕ) :
    Tensor.smul c ⟨sh, d, List.replicate N 0⟩ = ⟨sh, d, List.replicate N 0⟩ := by
  simp [Tensor.smul, List.map_replicate]

/-- Counterexample to C4 as stated: for `in_features = 1`, `out_features = 2`
(low-rank mode, `B` zeroed at init), `forward` on a valid `(1, 1)` batch does
not produce a zero correction — it fails with a shape mismatch, because the
square basis-change `U` cannot be applied after the `(2, 1) x (1, 1)`
correction.  So zero-at-init does not hold "for any `in_features,
out_features`". -/
theorem lora_zero_at_init_counterexample :
    (LoRALayer.init 1 2 1 1 true [0]).forward
      (⟨[1, 1], DType.float32, [1]⟩ : Tensor) = none := by
  rfl

/-- C4 amended: zero-at-init holds for every layer with `in_features =
out_features` (the only layers whose forward pass is accepted at all, cf.
`lora_forward_requires_square`): freshly constructed, in low-rank mode the
zero factor `B` makes the output exactly zero regardless of the random
values of `A`, and in dense mode the zero `D` and zero bias do — for every
input batch of shape `(bsz, n)`, forward returns the zero tensor of shape
`(bsz, n)`. -/
theorem lora_zero_at_init (n r : ℕ) (alpha : ℚ) (bias : Bool) (AData : List ℚ)
    (bsz : ℕ) (inputs : Tensor) (hshape : inputs.shape = [bsz, n]) :
    (LoRALayer.init n n r alpha bias AData).forward inputs
      = some ⟨[bsz, n], inputs.dtype, List.replicate (bsz * n) 0⟩ := by
  have hU : (LoRALayer.init n n r alpha bias AData).U = eyeT n :=
    init_U n n r alpha bias AData
  have hUsh : (eyeT n).shape = [n, n] := rfl
  by_cases hr : r > 0
  · simp only [LoRALayer.forward, init_r, hr, if_pos, hU]
    rw [flinear_of_shapes hshape hUsh]
    simp only [Option.some_bind]
    rw [init_B_pos n n r alpha bias AData hr, init_A_pos n n r alpha bias AData hr]
    rw [matmul_zero_left (rfl : (zerosT [n, r]).shape = [n, r])
      (rfl : (⟨[r, n], DType.float32, AData⟩ : Tensor).shape = [r, n])
      (fun y hy => List.eq_of_mem_replicate hy)]
    simp only [Option.some_bind]
    rw [flinear_zero_weight (rfl : ([bsz, n] : List ℕ) = [bsz, n])
      (rfl : ([n, n] : List ℕ) = [n, n])
      (fun y hy => List.eq_of_mem_replicate hy)]
    simp only [Option.some_bind]
    rw [t2_of_shape hUsh]
    simp only [Option.some_bind]
    rw [flinear_zero_input (rfl : ([bsz, n] : List ℕ) = [bsz, n])
      (rfl : ([n, n] : List ℕ) = [n, n])
      (fun y hy => List.eq_of_mem_replicate hy)]
    simp only [Option.map_some']
    rw [smul_replicate_zero]
  · simp only [LoRALayer.forward, init_r, hr, if_neg, if_false, hU]
    have hD := init_D_zero n n r alpha bias AData hr
    cases bias with
    | true =>
      simp only [init_bias, if_true]
      rw [flinear_of_shapes hshape hUsh]
      simp only [Option.some_bind]
      rw [hD]
      rw [flinear_zero_weight (rfl : ([bsz, n] : List ℕ) = [bsz, n])
        (rfl : (zerosT [n, n]).shape = [n, n])
        (fun y hy => List.eq_of_mem_replicate hy)]
      simp only [Option.some_bind]
      rw [t2_of_shape hUsh]
      simp only [Option.some_bind]
      rw [flinear_zero_input (rfl : ([bsz, n] : List ℕ) = [bsz, n])
        (rfl : ([n, n] : List ℕ) = [n, n])
        (fun y hy => List.eq_of_mem_replicate hy)]
      simp only [Option.some_bind]
      rw [init_b_zero n n r alpha AData hr]
      rw [add_zero_zero
        (show broadcastShape
            (⟨[bsz, n], inputs.dtype, List.replicate (bsz * n) 0⟩ : Tensor).shape
            (zerosT [n]).shape = some [bsz, n] from by
          simp [broadcastShape, bcastRev, zerosT])
        (fun y hy => List.eq_of_mem_replicate hy)
        (fun y hy => List.eq_of_mem_replicate hy)]
      refine congrArg some ?_
      refine congrArg (Tensor.mk [bsz, n] inputs.dtype) ?_
      refine congrArg (List.replicate · 0) ?_
      simp
    | false =>
      simp only [init_bias, Bool.false_eq_true, if_false]
      rw [flinear_of_shapes hshape hUsh]
      simp only [Option.some_bind]
      rw [hD]
      rw [flinear_zero_weight (rfl : ([bsz, n] : List ℕ) = [bsz, n])
        (rfl : (zerosT [n, n]).shape = [n, n])
        (fun y hy => List.eq_of_mem_replicate hy)]
      simp only [Option.some_bind]
      rw [t2_of_shape hUsh]
      simp only [Option.some_bind]
      rw [flinear_zero_input (rfl : ([bsz, n] : List ℕ) = [bsz, n])
        (rfl : ([n, n] : List ℕ) = [n, n])
        (fun y hy => List.eq_of_mem_replicate hy)]

/-- Witness for the amended C4: a square `2 -> 2` layer of rank 1 with a
nonzero random `A` returns the zero correction on a concrete batch. -/
theorem lora_zero_at_init_witness :
    (LoRALayer.init 2 2 1 3 true [5, 6]).forward
      (⟨[1, 2], DType.float32, [3, 4]⟩ : Tensor)
      = some ⟨[1, 2], DType.float32, List.replicate (1 * 2) 0⟩ :=
  lora_zero_at_init 2 1 3 true [5, 6] 1
    (⟨[1, 2], DType.float32, [3, 4]⟩ : Tensor) (by decide)

/-- Counterexample to C9 as stated: for a path with no directory component,
`save_vector` does not create directories and serialize — it crashes,
because `os.path.dirname("v.pt") = ""` and `os.makedirs("", exist_ok=True)`
raises `FileNotFoundError`.  So the round-trip law does not hold "for every
path". -/
theorem persistence_bare_filename_counterexample :
    saveVector [] "v.pt" ⟨[], []⟩ = .error .fileNotFound := by
  decide

/-- C9 amended: for every task vector and every path with a nonempty parent
directory, `save_vector` creates the parent directory and stores the
key-to-tensor map, and `load_vector` of the same path returns exactly the
saved map (bit-identical: torch serialization of a tensor dict is exact). -/
theorem persistence_round_trip (vec : SD) (path : String) (fs : FileSys)
    (h : dirname path ≠ "") :
    saveVector vec path fs
      = .ok ⟨dirname path :: fs.dirs, (path, vec) :: fs.files⟩ ∧
    dirname path ∈ (dirname path :: fs.dirs) ∧
    loadVector path ⟨dirname path :: fs.dirs, (path, vec) :: fs.files⟩
      = .ok vec := by
  refine ⟨?_, List.mem_cons_self _ _, ?_⟩
  · simp [saveVector, makedirs, h, Except.map]
  · simp [loadVector, lookupT]

/-- Witness for the amended C9 at the path `"models/v.pt"`. -/
theorem persistence_round_trip_witness :
    dirname "models/v.pt" ≠ "" ∧
    loadVector "models/v.pt"
      ⟨dirname "models/v.pt" :: ([] : List String),
       [("models/v.pt", [("w", (⟨[1], DType.float32, [1]⟩ : Tensor))])]⟩
      = .ok [("w", (⟨[1], DType.float32, [1]⟩ : Tensor))] :=
  ⟨by decide,
   (persistence_round_trip [("w", (⟨[1], DType.float32, [1]⟩ : Tensor))]
     "models/v.pt" ⟨[], []⟩ (by decide)).2.2⟩

theorem lookupT_mem {α : Type} : ∀ (l : List (String × α)) (k : String) (v : α),
    lookupT l k = some v → (k, v) ∈ l := by
  intro l
  induction l with
  | nil => intro k v h; cases h
  | cons hd rest ih =>
    intro k v h
    obtain ⟨k0, v0⟩ := hd
    simp only [lookupT] at h
    by_cases hk : k = k0
    · rw [if_pos hk] at h
      cases h
      subst hk
      exact List.mem_cons_self _ _
    · rw [if_neg hk] at h
      exact List.mem_cons_of_mem _ (ih k v h)

theorem negS_keeps : ∀ (m : RefMap) (s : Store),
    s.tensors.length ≤ (negS s m).1.tensors.length
    ∧ (∀ a, a < s.tensors.length → (negS s m).1.tensors[a]? = s.tensors[a]?)
    ∧ (∀ p ∈ (negS s m).2, s.tensors.length ≤ p.2) := by
  intro m
  induction m with
  | nil =>
    intro s
    exact ⟨le_refl _, fun a _ => rfl, fun p hp => absurd hp (List.not_mem_nil p)⟩
  | cons hd rest ih =>
    intro s
    obtain ⟨k, ad⟩ := hd
    obtain ⟨ihlen, ihget, ihfresh⟩ := ih (s.alloc (Tensor.neg (s.read ad))).1
    have hlen1 : (s.alloc (Tensor.neg (s.read ad))).1.tensors.length
        = s.tensors.length + 1 := by
      simp [Store.alloc]
    simp only [negS]
    refine ⟨?_, ?_, ?_⟩
    · calc s.tensors.length ≤ s.tensors.length + 1 := Nat.le_succ _
        _ = _ := hlen1.symm
        _ ≤ _ := ihlen
    · intro a ha
      rw [ihget a (by rw [hlen1]; exact Nat.lt_succ_of_lt ha)]
      show (s.tensors ++ [Tensor.neg (s.read ad)])[a]? = s.tensors[a]?
      exact List.getElem?_append_left ha
    · intro p hp
      rcases List.mem_cons.mp hp with hh | ht
      · subst hh
        exact le_refl _
      · have hf := ihfresh p ht
        rw [hlen1] at hf
        omega

theorem copyAll_keeps : ∀ (m : RefMap) (s : Store),
    s.tensors.length ≤ (copyAll s m).1.tensors.length
    ∧ (∀ a, a < s.tensors.length → (copyAll s m).1.tensors[a]? = s.tensors[a]?)
    ∧ (∀ p ∈ (copyAll s m).2, s.tensors.length ≤ p.2) := by
  intro m
  induction m with
  | nil =>
    intro s
    exact ⟨le_refl _, fun a _ => rfl, fun p hp => absurd hp (List.not_mem_nil p)⟩
  | cons hd rest ih =>
    intro s
    obtain ⟨k, ad⟩ := hd
    obtain ⟨ihlen, ihget, ihfresh⟩ := ih (s.alloc (s.read ad)).1
    have hlen1 : (s.alloc (s.read ad)).1.tensors.length = s.tensors.length + 1 := by
      simp [Store.alloc]
    simp only [copyAll]
    refine ⟨?_, ?_, ?_⟩
    · calc s.tensors.length ≤ s.tensors.length + 1 := Nat.le_succ _
        _ = _ := hlen1.symm
        _ ≤ _ := ihlen
    · intro a ha
      rw [ihget a (by rw [hlen1]; exact Nat.lt_succ_of_lt ha)]
      show (s.tensors ++ [s.read ad])[a]? = s.tensors[a]?
      exact List.getElem?_append_left ha
    · intro p hp
      rcases List.mem_cons.mp hp with hh | ht
      · subst hh
        exact le_refl _
      · have hf := ihfresh p ht
        rw [hlen1] at hf
        omega

theorem addS_keeps (bm : RefMap) : ∀ (m : RefMap) (s : Store),
    s.tensors.length ≤ (addS s bm m).1.tensors.length
    ∧ (∀ a, a < s.tensors.length → (addS s bm m).1.tensors[a]? = s.tensors[a]?)
    ∧ (∀ rm ws, (addS s bm m).2 = .ok (rm, ws) →
        ∀ p ∈ rm, s.tensors.length ≤ p.2) := by
  intro m
  induction m with
  | nil =>
    intro s
    refine ⟨le_refl _, fun a _ => rfl, ?_⟩
    intro rm ws h p hp
    simp only [addS, Except.ok.injEq, Prod.mk.injEq] at h
    obtain ⟨h1, -⟩ := h
    subst h1
    exact absurd hp (List.not_mem_nil p)
  | cons hd rest ih =>
    intro s
    obtain ⟨k, ad⟩ := hd
    cases hb : lookupT bm k with
    | none =>
      obtain ⟨ihlen, ihget, ihfresh⟩ := ih s
      simp only [addS, hb]
      refine ⟨ihlen, ihget, ?_⟩
      intro rm ws h p hp
      cases hq : (addS s bm rest).2 with
      | error e => rw [hq] at h; cases h
      | ok pr =>
        obtain ⟨rm0, ws0⟩ := pr
        rw [hq] at h
        simp only [Except.map, Except.ok.injEq, Prod.mk.injEq] at h
        obtain ⟨h1, -⟩ := h
        subst h1
        exact ihfresh rm0 ws0 hq p hp
    | some bd =>
      cases hadd : Tensor.add (s.read ad) (s.read bd) with
      | none =>
        simp only [addS, hb, hadd]
        refine ⟨le_refl _, by intro a _; trivial, ?_⟩
        intro rm ws h
        cases h
      | some t =>
        obtain ⟨ihlen, ihget, ihfresh⟩ := ih (s.alloc t).1
        have hlen1 : (s.alloc t).1.tensors.length = s.tensors.length + 1 := by
          simp [Store.alloc]
        simp only [addS, hb, hadd]
        refine ⟨?_, ?_, ?_⟩
        · calc s.tensors.length ≤ s.tensors.length + 1 := Nat.le_succ _
            _ = _ := hlen1.symm
            _ ≤ _ := ihlen
        · intro a ha
          rw [ihget a (by rw [hlen1]; exact Nat.lt_succ_of_lt ha)]
          show (s.tensors ++ [t])[a]? = s.tensors[a]?
          exact List.getElem?_append_left ha
        · intro rm ws h p hp
          cases hq : (addS (s.alloc t).1 bm rest).2 with
          | error e => rw [hq] at h; cases h
          | ok pr =>
            obtain ⟨rm0, ws0⟩ := pr
            rw [hq] at h
            simp only [Except.map, Except.ok.injEq, Prod.mk.injEq] at h
            obtain ⟨h1, -⟩ := h
            subst h1
            rcases List.mem_cons.mp hp with hh | ht
            · subst hh
              exact le_refl _
            · have hf := ihfresh rm0 ws0 hq p ht
              rw [hlen1] at hf
              omega

theorem buildNewS_keeps (vm : RefMap) (c : ℚ) : ∀ (m : RefMap) (s : Store),
    s.tensors.length ≤ (buildNewS s vm c m).1.tensors.length
    ∧ (∀ a, a < s.tensors.length → (buildNewS s vm c m).1.tensors[a]? = s.tensors[a]?) := by
  intro m
  induction m with
  | nil => intro s; exact ⟨le_refl _, fun a _ => rfl⟩
  | cons hd rest ih =>
    intro s
    obtain ⟨k, ad⟩ := hd
    cases hb : lookupT vm k with
    | none =>
      obtain ⟨ihlen, ihget⟩ := ih s
      simp only [buildNewS, hb]
      exact ⟨ihlen, ihget⟩
    | some vd =>
      cases hadd : Tensor.add (s.read ad) (Tensor.smul c (s.read vd)) with
      | none =>
        simp only [buildNewS, hb, hadd]
        exact ⟨le_refl _, by intro a _; trivial⟩
      | some t =>
        obtain ⟨ihlen, ihget⟩ := ih (s.alloc t).1
        have hlen1 : (s.alloc t).1.tensors.length = s.tensors.length + 1 := by
          simp [Store.alloc]
        simp only [buildNewS, hb, hadd]
        refine ⟨?_, ?_⟩
        · calc s.tensors.length ≤ s.tensors.length + 1 := Nat.le_succ _
            _ = _ := hlen1.symm
            _ ≤ _ := ihlen
        · intro a ha
          rw [ihget a (by rw [hlen1]; exact Nat.lt_succ_of_lt ha)]
          show (s.tensors ++ [t])[a]? = s.tensors[a]?
          exact List.getElem?_append_left ha

theorem loadSD_keeps (target : RefMap) (lvl : ℕ) (hfresh : ∀ p ∈ target, lvl ≤ p.2) :
    ∀ (nm : RefMap) (s : Store),
    (loadSD s target nm).tensors.length = s.tensors.length
    ∧ (∀ a, a < lvl → (loadSD s target nm).tensors[a]? = s.tensors[a]?) := by
  intro nm
  induction nm with
  | nil => intro s; exact ⟨rfl, fun a _ => rfl⟩
  | cons hd rest ih =>
    intro s
    obtain ⟨k, ad⟩ := hd
    cases ht : lookupT target k with
    | none =>
      simp only [loadSD, ht]
      exact ih s
    | some td =>
      obtain ⟨ihlen, ihget⟩ := ih (s.write td (s.read ad))
      have htd : lvl ≤ td := hfresh (k, td) (lookupT_mem target k td ht)
      simp only [loadSD, ht]
      refine ⟨?_, ?_⟩
      · rw [ihlen]
        show (s.tensors.set td (s.read ad)).length = s.tensors.length
        simp
      · intro a ha
        rw [ihget a ha]
        show (s.tensors.set td (s.read ad))[a]? = s.tensors[a]?
        exact List.getElem?_set_ne (by omega)

theorem applyToS_keeps (s : Store) (vm base : RefMap) (c : ℚ) :
    (∀ a, a < s.tensors.length →
      (applyToS s vm base c).1.tensors[a]? = s.tensors[a]?)
    ∧ (∀ rm, (applyToS s vm base c).2 = .ok rm →
        ∀ p ∈ rm, s.tensors.length ≤ p.2) := by
  obtain ⟨clen, cget, cfresh⟩ := copyAll_keeps base s
  obtain ⟨blen, bget⟩ := buildNewS_keeps vm c (copyAll s base).2 (copyAll s base).1
  cases hB : buildNewS (copyAll s base).1 vm c (copyAll s base).2 with
  | mk s2 r2 =>
    cases r2 with
    | error e =>
      have happ : applyToS s vm base c = (s2, .error e) := by
        simp only [applyToS, hB]
      rw [happ]
      refine ⟨?_, ?_⟩
      · intro a ha
        have hga := bget a (lt_of_lt_of_le ha clen)
        rw [hB] at hga
        rw [hga]
        exact cget a ha
      · intro rm h
        cases h
    | ok pr =>
      obtain ⟨nm, ws⟩ := pr
      have happ : applyToS s vm base c
          = (loadSD s2 (copyAll s base).2 nm, .ok (copyAll s base).2) := by
        simp only [applyToS, hB]
      rw [happ]
      obtain ⟨llen, lget⟩ := loadSD_keeps (copyAll s base).2 s.tensors.length
        cfresh nm s2
      refine ⟨?_, ?_⟩
      · intro a ha
        rw [lget a ha]
        have hga := bget a (lt_of_lt_of_le ha clen)
        rw [hB] at hga
        rw [hga]
        exact cget a ha
      · intro rm h p hp
        injection h with h1
        subst h1
        exact cfresh p hp

/-- C7: value semantics of the task-vector algebra, over an explicit tensor
store.  `__neg__`, `__add__` and `apply_to` never modify any tensor that
existed before the call (in particular the parameter maps of their operand
vectors and the base checkpoint are untouched: `apply_to` deep-copies the
base and `load_state_dict` writes only into the copy), and every map they
return points only at freshly allocated tensors — the operations return new
objects. -/
theorem taskvector_value_semantics (s : Store) (am bm vm base : RefMap)
    (c : ℚ) (ad : ℕ) (had : ad < s.tensors.length) :
    ((negS s am).1.tensors[ad]? = s.tensors[ad]?)
    ∧ ((addS s bm am).1.tensors[ad]? = s.tensors[ad]?)
    ∧ ((applyToS s vm base c).1.tensors[ad]? = s.tensors[ad]?)
    ∧ (((negS s am).2.map Prod.snd).all
        (fun p => decide (s.tensors.length ≤ p)) = true)
    ∧ (∀ rm ws, (addS s bm am).2 = .ok (rm, ws) →
        (rm.map Prod.snd).all (fun p => decide (s.tensors.length ≤ p)) = true)
    ∧ (∀ rm, (applyToS s vm base c).2 = .ok rm →
        (rm.map Prod.snd).all (fun p => decide (s.tensors.length ≤ p)) = true) := by
  refine ⟨(negS_keeps am s).2.1 ad had, (addS_keeps bm am s).2.1 ad had,
    (applyToS_keeps s vm base c).1 ad had, ?_, ?_, ?_⟩
  · rw [List.all_eq_true]
    intro x hx
    simp only [List.mem_map] at hx
    obtain ⟨p, hp, rfl⟩ := hx
    exact decide_eq_true ((negS_keeps am s).2.2 p hp)
  · intro rm ws h
    rw [List.all_eq_true]
    intro x hx
    simp only [List.mem_map] at hx
    obtain ⟨p, hp, rfl⟩ := hx
    exact decide_eq_true ((addS_keeps bm am s).2.2 rm ws h p hp)
  · intro rm h
    rw [List.all_eq_true]
    intro x hx
    simp only [List.mem_map] at hx
    obtain ⟨p, hp, rfl⟩ := hx
    exact decide_eq_true ((applyToS_keeps s vm base c).2 rm h p hp)

/-- Witness for C7 at a concrete two-tensor store: the pre-existing tensor
at address 0 is unchanged by all three operations, and all result maps point
at fresh addresses (at or beyond the old store length 2). -/
theorem taskvector_value_semantics_witness :
    ((negS ⟨[(⟨[1], DType.float32, [1]⟩ : Tensor), (⟨[1], DType.float32, [2]⟩ : Tensor)]⟩
        [("w", 0)]).1.tensors[0]?
      = (⟨[(⟨[1], DType.float32, [1]⟩ : Tensor), (⟨[1], DType.float32, [2]⟩ : Tensor)]⟩ : Store).tensors[0]?)
    ∧ ((addS ⟨[(⟨[1], DType.float32, [1]⟩ : Tensor), (⟨[1], DType.float32, [2]⟩ : Tensor)]⟩
        [("w", 1)] [("w", 0)]).1.tensors[0]?
      = (⟨[(⟨[1], DType.float32, [1]⟩ : Tensor), (⟨[1], DType.float32, [2]⟩ : Tensor)]⟩ : Store).tensors[0]?)
    ∧ ((applyToS ⟨[(⟨[1], DType.float32, [1]⟩ : Tensor), (⟨[1], DType.float32, [2]⟩ : Tensor)]⟩
        [("w", 1)] [("w", 0)] 2).1.tensors[0]?
      = (⟨[(⟨[1], DType.float32, [1]⟩ : Tensor), (⟨[1], DType.float32, [2]⟩ : Tensor)]⟩ : Store).tensors[0]?)
    ∧ (((negS ⟨[(⟨[1], DType.float32, [1]⟩ : Tensor), (⟨[1], DType.float32, [2]⟩ : Tensor)]⟩
        [("w", 0)]).2.map Prod.snd).all (fun p => decide (2 ≤ p)) = true) := by
  have h := taskvector_value_semantics
    ⟨[(⟨[1], DType.float32, [1]⟩ : Tensor), (⟨[1], DType.float32, [2]⟩ : Tensor)]⟩
    [("w", 0)] [("w", 1)] [("w", 1)] [("w", 0)] 2 0 (by decide)
  exact ⟨h.1, h.2.1, h.2.2.1, h.2.2.2.1⟩

theorem orthTerms_fro {n : ℕ} (Us : List (Matrix (Fin n) (Fin n) ℝ)) :
    orthTerms "fro" Us = .ok (Us.map (fun U => froNorm (Uᵀ * U - 1))) := by
  induction Us with
  | nil => rfl
  | cons U rest ih => simp [orthTerms, ih, Except.map]

theorem orthTerms_spec {n : ℕ} (Us : List (Matrix (Fin n) (Fin n) ℝ)) :
    orthTerms "spec" Us = .ok (Us.map (fun U => specNorm (Uᵀ * U - 1))) := by
  induction Us with
  | nil => rfl
  | cons U rest ih => simp [orthTerms, ih, Except.map]

theorem orthTerms_invalid {n : ℕ} (sel : String) (h1 : sel ≠ "fro")
    (h2 : sel ≠ "spec") (U : Matrix (Fin n) (Fin n) ℝ)
    (rest : List (Matrix (Fin n) (Fin n) ℝ)) :
    orthTerms sel (U :: rest) = .error (.invalidAdjustType sel) := by
  simp [orthTerms, h1, h2]

theorem attnUs_length {n : ℕ} (enc : ImageEncoderModel n) :
    (attnUs enc).length = enc.layers * 4 := by
  simp only [attnUs, List.length_flatMap, List.map_map]
  calc ((List.range enc.layers).map
        ((fun l => l.length) ∘ fun i => embeds.map (fun e => enc.deltaU i e))).sum
      = ((List.range enc.layers).map fun _ => 4).sum := by
        refine congrArg List.sum (List.map_congr_left ?_)
        intro i _
        rfl
    _ = enc.layers * 4 := by
        simp [List.map_const', List.sum_replicate, smul_eq_mul]

/-- C8: `OrthLoss.forward` fails with the invalid-configuration `ValueError`
iff the norm selector is neither `"fro"` nor `"spec"` (raised at the first
loop iteration); for a valid selector it returns the mean, over the rotation
matrices `U` of the q/k/v/out projections of every transformer layer, of the
selected norm of `U.T @ U - I`.  The hypothesis `0 < enc.layers` is the
well-formedness of the encoder (the zero-layer edge case is the separate,
documented division-by-zero programmer error). -/
theorem orthloss_forward_spec {n : ℕ} (sel : String) (enc : ImageEncoderModel n)
    (hl : 0 < enc.layers) :
    ((OrthLossForward sel enc).isOk = false ↔ (sel ≠ "fro" ∧ sel ≠ "spec")) ∧
    (sel ≠ "fro" ∧ sel ≠ "spec" →
      OrthLossForward sel enc = .error (.invalidAdjustType sel)) ∧
    (sel = "fro" → OrthLossForward sel enc
      = .ok (((attnUs enc).map (fun U => froNorm (Uᵀ * U - 1))).sum
          / ((enc.layers * 4 : ℕ) : ℝ))) ∧
    (sel = "spec" → OrthLossForward sel enc
      = .ok (((attnUs enc).map (fun U => specNorm (Uᵀ * U - 1))).sum
          / ((enc.layers * 4 : ℕ) : ℝ))) := by
  have hlen : (attnUs enc).length = enc.layers * 4 := attnUs_length enc
  have hpos : (attnUs enc).length ≠ 0 := by
    rw [hlen]
    positivity
  by_cases hf : sel = "fro"
  · subst hf
    have hfwd : OrthLossForward "fro" enc
        = .ok (((attnUs enc).map (fun U => froNorm (Uᵀ * U - 1))).sum
          / ((enc.layers * 4 : ℕ) : ℝ)) := by
      simp only [OrthLossForward, orthTerms_fro]
      rw [if_neg (by rw [List.length_map]; exact hpos)]
      rw [List.length_map, hlen]
    refine ⟨?_, ?_, fun _ => hfwd, ?_⟩
    · rw [hfwd]
      simp [Except.isOk, Except.toBool]
    · intro hca
      exact absurd rfl hca.1
    · intro hsp
      exact absurd hsp (by decide)
  · by_cases hs : sel = "spec"
    · subst hs
      have hfwd : OrthLossForward "spec" enc
          = .ok (((attnUs enc).map (fun U => specNorm (Uᵀ * U - 1))).sum
            / ((enc.layers * 4 : ℕ) : ℝ)) := by
        simp only [OrthLossForward, orthTerms_spec]
        rw [if_neg (by rw [List.length_map]; exact hpos)]
        rw [List.length_map, hlen]
      refine ⟨?_, ?_, ?_, fun _ => hfwd⟩
      · rw [hfwd]
        simp [Except.isOk, Except.toBool]
      · intro hca
        exact absurd rfl hca.2
      · intro hfr
        exact absurd hfr (by decide)
    · obtain ⟨U, rest, hcons⟩ : ∃ U rest, attnUs enc = U :: rest := by
        cases hA : attnUs enc with
        | nil => rw [hA] at hpos; simp at hpos
        | cons U rest => exact ⟨U, rest, rfl⟩
      have hfwd : OrthLossForward sel enc = .error (.invalidAdjustType sel) := by
        simp only [OrthLossForward, hcons, orthTerms_invalid sel hf hs U rest]
      refine ⟨?_, fun _ => hfwd, fun hfr => absurd hfr hf, fun hsp => absurd hsp hs⟩
      rw [hfwd]
      simp [Except.isOk, Except.toBool, hf, hs]

/-- Witness for C8 at a one-layer encoder with identity rotations: the
invalid selector `"bad"` raises the configuration error, the valid selector
`"fro"` returns the mean. -/
theorem orthloss_forward_spec_witness :
    OrthLossForward "bad" (⟨1, fun _ _ => 1⟩ : ImageEncoderModel 1)
      = .error (.invalidAdjustType "bad") ∧
    OrthLossForward "fro" (⟨1, fun _ _ => 1⟩ : ImageEncoderModel 1)
      = .ok (((attnUs (⟨1, fun _ _ => 1⟩ : ImageEncoderModel 1)).map
          (fun U => froNorm (Uᵀ * U - 1))).sum / ((1 * 4 : ℕ) : ℝ)) :=
  ⟨(orthloss_forward_spec "bad" (⟨1, fun _ _ => 1⟩ : ImageEncoderModel 1)
      (by decide)).2.1 ⟨by decide, by decide⟩,
   (orthloss_forward_spec "fro" (⟨1, fun _ _ => 1⟩ : ImageEncoderModel 1)
      (by decide)).2.2.1 rfl⟩

theorem qrQ_orthogonal {n : ℕ} (M : Matrix (Fin n) (Fin n) ℝ) (h : IsUnit M.det) :
    (qrQ M)ᵀ * qrQ M = 1 := by
  have hM : IsUnit M := (Matrix.isUnit_iff_isUnit_det M).mpr h
  have hli : LinearIndependent ℝ (fun k : Fin n => Mᵀ k) :=
    Matrix.linearIndependent_cols_iff_isUnit.mpr hM
  have hliE : LinearIndependent ℝ (colE M) := by
    have hmap := hli.map' (WithLp.linearEquiv 2 ℝ (Fin n → ℝ)).symm.toLinearMap
      (LinearEquiv.ker _)
    exact hmap
  have horth : Orthonormal ℝ (fun j => gsCol M j) :=
    @gramSchmidt_orthonormal ℝ (EuclideanSpace ℝ (Fin n)) _ _ _ (Fin n) _ _
      (inferInstance : WellFoundedLT (Fin n)) (colE M) hliE
  have hite := orthonormal_iff_ite.mp horth
  ext i j
  rw [Matrix.mul_apply, Matrix.one_apply]
  have hsum : (∑ k, (qrQ M)ᵀ i k * qrQ M k j)
      = (inner (gsCol M i) (gsCol M j) : ℝ) := by
    rw [PiLp.inner_apply]
    refine Finset.sum_congr rfl (fun k _ => ?_)
    simp [qrQ, Matrix.transpose_apply, RCLike.inner_apply, conj_trivial]
  rw [hsum, hite i j]

/-- C5: after `randomize()` — a variance-scaled random draw `K` (generic,
i.e. invertible, which holds almost surely) followed by the QR
re-orthogonalization — `U.T @ U` is exactly the identity in exact
arithmetic, and the re-orthogonalization update runs under
`@torch.no_grad()`, so it is not recorded on the autograd tape. -/
theorem rotation_randomize_orthogonal {n : ℕ} (s : RotationState n)
    (K : Matrix (Fin n) (Fin n) ℝ) (h : IsUnit K.det) :
    ((s.randomize K).U)ᵀ * (s.randomize K).U = 1 ∧
    (s.randomize K).tapeRecorded = false :=
  ⟨qrQ_orthogonal K h, rfl⟩

/-- Witness for C5 at the (invertible) draw `K = 1` on a `1 x 1` rotation
state. -/
theorem rotation_randomize_orthogonal_witness :
    (((⟨1, true⟩ : RotationState 1).randomize 1).U)ᵀ
        * ((⟨1, true⟩ : RotationState 1).randomize 1).U = 1 ∧
    ((⟨1, true⟩ : RotationState 1).randomize 1).tapeRecorded = false :=
  rotation_randomize_orthogonal (⟨1, true⟩ : RotationState 1) 1 (by simp)
